import Mathlib

/-!
Verification of the navigation and disclosure state machine of the
data-dictionary application (src/src/App.jsx, the revision providing
type-to-select, `expandGroupFully` and `collapseGroupFully`).

The JavaScript source is shallowly embedded: JS strings become `String`
(with character-level helpers mirroring `toLowerCase`, `trim`,
`startsWith`, `includes`), JS plain objects used as boolean maps become
association lists (`ObjMap`), JS arrays become `List`, the component
state becomes `AppState`, and the keyboard handler `onAsideKeyDown`,
the search-box `onChange` and the focus/selection `useEffect` become
pure state-transition functions.
-/

namespace DataDict

/-! ### Character and string helpers (JS `toLowerCase`, `trim`, `startsWith`, `includes`) -/

/-- Lowercasing of a character list, modelling JS `String.prototype.toLowerCase`
(restricted to the ASCII range, as `Char.toLower` is). -/
def lowerChars (l : List Char) : List Char := l.map Char.toLower

/-- Lowercasing of a string. -/
def strLower (s : String) : String := ⟨lowerChars s.data⟩

/-- Whitespace test used by JS `String.prototype.trim`. -/
def wsChar (c : Char) : Bool := c == ' ' || c == '\t' || c == '\n' || c == '\r'

/-- `trim` on character lists: drop whitespace from both ends. -/
def trimChars (l : List Char) : List Char :=
  ((l.dropWhile wsChar).reverse.dropWhile wsChar).reverse

/-- JS `String.prototype.trim`. -/
def strTrim (s : String) : String := ⟨trimChars s.data⟩

/-- `startsChars s p` : the list `s` starts with the list `p`
(JS `s.startsWith(p)` at character level). -/
def startsChars : List Char → List Char → Bool
  | _, [] => true
  | [], _ :: _ => false
  | a :: as, b :: bs => a == b && startsChars as bs

/-- JS `s.startsWith(p)`. -/
def strStarts (s p : String) : Bool := startsChars s.data p.data

/-- `subChars hay pat` : `pat` occurs as a contiguous run inside `hay`
(JS `hay.includes(pat)` at character level). -/
def subChars (pat : List Char) : List Char → Bool
  | [] => startsChars [] pat
  | c :: rest => startsChars (c :: rest) pat || subChars pat rest

/-- JS `s.includes(t)`. -/
def strIncludes (s t : String) : Bool := subChars t.data s.data

/-! ### JS objects used as boolean maps (`openGroups`, `openCategories`)

A JS plain object holding booleans is modelled as an association list.
`lookup` distinguishes `some true` / `some false` / `none` (key absent),
`get` is JS truthiness (`undefined` and `false` are both falsy),
`set` models `{ ...o, [k]: v }` and `eraseKey` models `delete o[k]`. -/

abbrev ObjMap := List (String × Bool)

namespace ObjMap

/-- Key lookup: `none` models an absent key (`undefined`). -/
def lookup (m : ObjMap) (k : String) : Option Bool :=
  match m with
  | [] => none
  | (k', v) :: rest => if k' = k then some v else lookup rest k

/-- JS truthiness of `o[k]`: absent keys read as `false`. -/
def get (m : ObjMap) (k : String) : Bool := (m.lookup k).getD false

/-- Remove every binding of key `k` (models `delete o[k]`). -/
def eraseKey (k : String) : ObjMap → ObjMap
  | [] => []
  | (k', v) :: rest => if k' = k then eraseKey k rest else (k', v) :: eraseKey k rest

/-- `{ ...o, [k]: v }` — the spread-update of a JS object, as a map. -/
def set (m : ObjMap) (k : String) (v : Bool) : ObjMap := (k, v) :: eraseKey k m

end ObjMap

/-! ### Data model -/

/-- One record of `data.json` inner items. -/
structure RawItem where
  term : String
  definition : String
  tags : List String
deriving Repr, DecidableEq

/-- One category record of `data.json`. -/
structure RawCategory where
  name : String
  items : List RawItem
deriving Repr, DecidableEq

/-- One group record of `data.json`. -/
structure RawGroup where
  group : String
  categories : List RawCategory
deriving Repr, DecidableEq

/-- A flattened entry, as produced by the `allItems` flatMap in App.jsx. -/
structure Entry where
  group : String
  category : String
  term : String
  definition : String
  tags : List String
deriving Repr, DecidableEq

/-- One element of the flat `visible` list built for keyboard navigation:
a group header, a category header, or an item row. -/
inductive VisibleNode where
  | group (group : String)
  | category (group : String) (category : String)
  | item (entry : Entry)
deriving Repr, DecidableEq

/-- The structural tier of a visible node. -/
inductive NodeType where
  | group
  | category
  | item
deriving Repr, DecidableEq

def nodeType : VisibleNode → NodeType
  | .group _ => .group
  | .category _ _ => .category
  | .item _ => .item

/-- The group a visible node belongs to. -/
def nodeGroup : VisibleNode → String
  | .group g => g
  | .category g _ => g
  | .item e => e.group

/-! ### The view builder (App.jsx lines 354-408) -/

/-- `concatMap` models the JS pattern of `forEach` loops pushing runs of
elements onto one output array (and JS `flatMap`). -/
def concatMap (f : α → List β) : List α → List β
  | [] => []
  | a :: rest => f a ++ concatMap f rest

/-- Membership test on a list of strings (JS `Set.prototype.has`). -/
def containsStr (l : List String) (x : String) : Bool :=
  match l with
  | [] => false
  | y :: t => if y = x then true else containsStr t x

/-- Deduplication with the set of already-seen keys: each element is
kept on its first occurrence and dropped afterwards, exactly as a JS
`Set` accumulates insertions. -/
def uniqAux (seen : List String) : List String → List String
  | [] => []
  | x :: xs => if containsStr seen x then uniqAux seen xs
               else x :: uniqAux (x :: seen) xs

/-- First-occurrence deduplication: JS `Array.from(new Set(xs))`. -/
def uniq (l : List String) : List String := uniqAux [] l

/-- `const trimmedTerm = searchTerm.trim().toLowerCase()` (line 355). -/
def trimmedTerm (searchTerm : String) : String := strLower (strTrim searchTerm)

/-- `allItems` (lines 356-366): flatten the nested dataset into entries. -/
def allItems (data : List RawGroup) : List Entry :=
  concatMap (fun g =>
    concatMap (fun cat =>
      cat.items.map (fun item =>
        ⟨g.group, cat.name, item.term, item.definition, item.tags⟩))
      g.categories)
    data

/-- `filteredItems` (lines 369-371): in search mode, the entries whose
lowercased term contains the trimmed lowercased query. -/
def filteredItems (data : List RawGroup) (tq : String) : List Entry :=
  if tq == "" then []
  else (allItems data).filter (fun i => strIncludes (strLower i.term) tq)

/-- `groups` (lines 374-376): group names, from the filtered items when
searching, from the dataset records otherwise. -/
def groupsOf (data : List RawGroup) (tq : String) : List String :=
  if tq == "" then data.map (·.group)
  else uniq ((filteredItems data tq).map (·.group))

/-- `categoriesByGroup` (lines 378-384): per-group deduplicated category
names; the `reduce` builds an object keyed by `groups`, and reads of any
other key yield `undefined`, taken as `[]` at the use sites
(`categoriesByGroup[group] || []`). -/
def categoriesByGroup (data : List RawGroup) (tq : String) (grp : String) : List String :=
  if containsStr (groupsOf data tq) grp then
    uniq (((if tq == "" then (allItems data).filter (fun i => i.group == grp)
            else filteredItems data tq)).map (·.category))
  else []

/-- The `${grp}::${cat}` key of `openCategories`. -/
def catKey (g c : String) : String := g ++ "::" ++ c

/-- The items pushed under an open category (lines 400-403). -/
def itemsUnder (data : List RawGroup) (g c : String) : List Entry :=
  (allItems data).filter (fun i => i.group == g && i.category == c)

/-- The run of nodes pushed for one category: its header, then its items
when `openCategories[key]` is truthy (lines 398-404). -/
def catBlock (data : List RawGroup) (oc : ObjMap) (g c : String) : List VisibleNode :=
  .category g c :: (if oc.get (catKey g c) then (itemsUnder data g c).map .item else [])

/-- The run of nodes pushed for one group: its header, then its category
blocks when `openGroups[grp]` is truthy (lines 395-406). -/
def groupSegment (data : List RawGroup) (og oc : ObjMap) (g : String) : List VisibleNode :=
  .group g :: (if og.get g then concatMap (catBlock data oc g) (categoriesByGroup data "" g)
               else [])

/-- `visible` (lines 388-408): the flat list for keyboard navigation.
Search mode emits the filtered items; browse mode emits group segments. -/
def buildVisible (data : List RawGroup) (og oc : ObjMap) (tq : String) : List VisibleNode :=
  if tq == "" then concatMap (groupSegment data og oc) (groupsOf data "")
  else (filteredItems data tq).map .item

/-! ### Component state and key events -/

/-- The React state of the `App` component (`useState` hooks). -/
structure AppState where
  selected : Option Entry
  searchTerm : String
  focusedIndex : Int
  openGroups : ObjMap
  openCategories : ObjMap
  typeSelectBuffer : String
deriving Repr, DecidableEq

/-- The recomputed `visible` list for a state. -/
def visibleOf (data : List RawGroup) (s : AppState) : List VisibleNode :=
  buildVisible data s.openGroups s.openCategories (trimmedTerm s.searchTerm)

/-- One keyboard event as seen by `onAsideKeyDown`: the key string, the
modifier flags, and whether `document.activeElement` is a text input. -/
structure KeyEvent where
  key : String
  ctrlKey : Bool
  metaKey : Bool
  altKey : Bool
  shiftKey : Bool
  inTextInput : Bool
deriving Repr, DecidableEq

/-- JS `visible[focusedIndex]` for a possibly negative index:
out-of-range reads give `undefined` (`none`). -/
def visAt (vis : List VisibleNode) (i : Int) : Option VisibleNode :=
  if i < 0 then none else vis.get? i.toNat

/-- `getLabel` (lines 465-470). -/
def getLabel : VisibleNode → String
  | .group g => g
  | .category _ c => c
  | .item e => e.term

/-- JS `Array.prototype.findIndex`, with `none` for the `-1` result. -/
def findIndexOpt (p : α → Bool) : List α → Option Nat
  | [] => none
  | a :: rest => if p a then some 0 else (findIndexOpt p rest).map (· + 1)

/-- The indices at which nodes of tier `t` occur, counting from `n`:
models `visible.map((el, idx) => ({el, idx})).filter(el.type === t)`. -/
def posFrom (t : NodeType) (n : Nat) : List VisibleNode → List Nat
  | [] => []
  | v :: rest => if nodeType v == t then n :: posFrom t (n + 1) rest
                 else posFrom t (n + 1) rest

/-- The indices of the tier-`t` nodes of a visible list. -/
def positions (vis : List VisibleNode) (t : NodeType) : List Nat := posFrom t 0 vis

/-- The reverse scan of the Option+ArrowUp tier jump (lines 551-557):
the last position in the list that is strictly below `fi`. -/
def lastBelow (fi : Int) : List Nat → Option Nat
  | [] => none
  | i :: rest =>
    match lastBelow fi rest with
    | some j => some j
    | none => if (i : Int) < fi then some i else none

/-- The forward scan of the Option+ArrowDown tier jump (lines 558-564):
the first position in the list that is strictly above `fi`. -/
def firstAbove (fi : Int) : List Nat → Option Nat
  | [] => none
  | i :: rest => if fi < (i : Int) then some i else firstAbove fi rest

/-- `expandGroupFully` (lines 441-450): open the group and set every
category under it (per `categoriesByGroup`) to open. -/
def expandGroupFully (data : List RawGroup) (tq g : String) (og oc : ObjMap) :
    ObjMap × ObjMap :=
  (og.set g true,
   (categoriesByGroup data tq g).foldl (fun m c => m.set (catKey g c) true) oc)

/-- `collapseGroupFully` (lines 453-462): close the group and `delete`
every category-open entry under it. -/
def collapseGroupFully (data : List RawGroup) (tq g : String) (og oc : ObjMap) :
    ObjMap × ObjMap :=
  (og.set g false,
   (categoriesByGroup data tq g).foldl (fun m c => ObjMap.eraseKey (catKey g c) m) oc)

/-- JS `findIndex`: the index of the first hit, `-1` when none. -/
def jsFindIndex (p : α → Bool) (l : List α) : Int :=
  match findIndexOpt p l with
  | some i => (i : Int)
  | none => -1

/-- The index picked by the group-tier jump (lines 533-537):
previous/next element of the group-position list relative to `pos`. -/
def altPick (key : String) (gs : List Nat) (pos : Int) : Option Nat :=
  if key = "ArrowUp" ∧ pos > 0 then gs.get? (pos - 1).toNat
  else if key = "ArrowDown" ∧ pos < (gs.length : Int) - 1 then gs.get? (pos + 1).toNat
  else none

/-- The target index of the Option/Alt + ArrowUp/ArrowDown tier jump
(lines 527-566): on a group header, the previous/next group header; on
an item or category header, the nearest header one tier up in the
respective direction; `none` when there is no target (silent no-op). -/
def altTierTarget (vis : List VisibleNode) (fi : Int) (e : KeyEvent) : Option Nat :=
  match visAt vis fi with
  | some (.group _) =>
    altPick e.key (positions vis .group)
      (jsFindIndex (fun i => (i : Int) == fi) (positions vis .group))
  | some (.item _) =>
    if e.key = "ArrowUp" then lastBelow fi (positions vis .category)
    else firstAbove fi (positions vis .category)
  | some (.category _ _) =>
    if e.key = "ArrowUp" then lastBelow fi (positions vis .group)
    else firstAbove fi (positions vis .group)
  | none => none

/-- The Option/Alt + ArrowUp/ArrowDown tier-jump branch (lines 525-568). -/
def altTierJump (vis : List VisibleNode) (e : KeyEvent) (s : AppState) : AppState :=
  match altTierTarget vis s.focusedIndex e with
  | some i => { s with focusedIndex := (i : Int) }
  | none => s

/-- Plain ArrowDown/ArrowUp movement (lines 581-582), clamped into
`[0, len-1]`. -/
def arrowMove (vis : List VisibleNode) (e : KeyEvent) (s : AppState) : AppState :=
  if e.key = "ArrowDown" then
    { s with focusedIndex := min (s.focusedIndex + 1) ((vis.length : Int) - 1) }
  else if e.key = "ArrowUp" then
    { s with focusedIndex := max (s.focusedIndex - 1) 0 }
  else s

/-- The Enter / Space / ArrowRight / ArrowLeft disclosure and selection
logic (lines 585-605) on the element that was under the cursor. -/
def activateEl (e : KeyEvent) (el : Option VisibleNode) (s : AppState) : AppState :=
  match el with
  | none => s
  | some (.group g) =>
    if e.key = "Enter" ∨ e.key = " " then
      { s with openGroups := s.openGroups.set g (! s.openGroups.get g) }
    else if e.key = "ArrowRight" ∨ e.key = "ArrowLeft" then
      { s with openGroups := s.openGroups.set g (e.key == "ArrowRight") }
    else s
  | some (.category g c) =>
    if e.key = "Enter" ∨ e.key = " " then
      { s with openCategories :=
          s.openCategories.set (catKey g c) (! s.openCategories.get (catKey g c)) }
    else if e.key = "ArrowRight" ∨ e.key = "ArrowLeft" then
      { s with openCategories := s.openCategories.set (catKey g c) (e.key == "ArrowRight") }
    else s
  | some (.item it) =>
    if e.key = "Enter" ∨ e.key = " " then { s with selected := some it } else s

/-- The tail of `onAsideKeyDown` (lines 581-605): plain-arrow movement,
then the activation logic on the element that was under the cursor
(read before the move, line 497). -/
def tailStep (vis : List VisibleNode) (e : KeyEvent) (el : Option VisibleNode)
    (s : AppState) : AppState :=
  activateEl e el (arrowMove vis e s)

/-- The guard of the type-to-select branch (lines 474-478): focus is
not in a text input, the key is a single character, and no modifier
besides Shift is held. -/
def typeAheadGuard (e : KeyEvent) : Bool :=
  !e.inTextInput && (e.key.length == 1) && !e.ctrlKey && !e.metaKey && !e.altKey

/-- The type-to-select branch body (lines 479-495): append the key to
the buffer (through JS `trim`), then move the cursor to the first
visible node whose label starts with the buffer, case-insensitively. -/
def typeAheadStep (vis : List VisibleNode) (e : KeyEvent) (s : AppState) : AppState :=
  match findIndexOpt
      (fun el => strStarts (strLower (getLabel el))
        (strLower (strTrim (s.typeSelectBuffer ++ e.key)))) vis with
  | some idx => { s with typeSelectBuffer := strTrim (s.typeSelectBuffer ++ e.key),
                         focusedIndex := (idx : Int) }
  | none => { s with typeSelectBuffer := strTrim (s.typeSelectBuffer ++ e.key) }

/-- Guard of the Command + ArrowUp/ArrowDown branch (line 512). -/
def metaJumpGuard (e : KeyEvent) : Bool :=
  e.metaKey && (e.key == "ArrowUp" || e.key == "ArrowDown")

/-- Command + arrow: first/last visible group (lines 512-522). -/
def metaJumpStep (vis : List VisibleNode) (e : KeyEvent) (s : AppState) : AppState :=
  match positions vis .group with
  | [] => s
  | i0 :: rest =>
    { s with focusedIndex :=
        if e.key == "ArrowUp" then (i0 : Int)
        else ((i0 :: rest).getLast (List.cons_ne_nil i0 rest) : Int) }

/-- Guard of the Option/Alt + ArrowUp/ArrowDown branch (line 525). -/
def altJumpGuard (e : KeyEvent) : Bool :=
  e.altKey && (e.key == "ArrowUp" || e.key == "ArrowDown")

/-- Lines 570-605: the Option+ArrowRight / Option+ArrowLeft full
expand/collapse on a group header under the cursor, falling through to
`tailStep` in every other case — including Alt+arrow on a category
header, which then hits the plain ArrowRight/ArrowLeft branch. -/
def dispatchOnEl (data : List RawGroup) (tq : String) (vis : List VisibleNode)
    (e : KeyEvent) (s : AppState) : AppState :=
  let el := visAt vis s.focusedIndex
  match el with
  | some (.group g) =>
    if e.altKey && e.key == "ArrowRight" && ! s.openGroups.get g then
      let p := expandGroupFully data tq g s.openGroups s.openCategories
      { s with openGroups := p.1, openCategories := p.2 }
    else if e.altKey && e.key == "ArrowLeft" && s.openGroups.get g then
      let p := collapseGroupFully data tq g s.openGroups s.openCategories
      { s with openGroups := p.1, openCategories := p.2 }
    else tailStep vis e el s
  | _ => tailStep vis e el s

/-- `onAsideKeyDown` (lines 472-606), as a pure state transition.  The
`preventDefault` signals and the type-ahead expiry timer are side
effects outside the state and are not modelled. -/
def onAsideKeyDown (data : List RawGroup) (e : KeyEvent) (s : AppState) : AppState :=
  let tq := trimmedTerm s.searchTerm
  let vis := buildVisible data s.openGroups s.openCategories tq
  if typeAheadGuard e then typeAheadStep vis e s
  else if metaJumpGuard e then metaJumpStep vis e s
  else if altJumpGuard e then altTierJump vis e s
  else dispatchOnEl data tq vis e s

/-- The focus/selection sync `useEffect` (lines 410-423): when the node
under the cursor is an item, select it; otherwise leave the selection.
(The DOM `focus()` call is a side effect outside the state.) -/
def syncSelection (data : List RawGroup) (s : AppState) : AppState :=
  match visAt (visibleOf data s) s.focusedIndex with
  | some (.item it) => { s with selected := some it }
  | _ => s

/-- The search box `onChange` (lines 618-625): store the new raw query. -/
def setQuery (q : String) (s : AppState) : AppState := { s with searchTerm := q }

/-- An input to the controller: an aside key event, or a search edit. -/
inductive Event where
  | key (e : KeyEvent)
  | searchEdit (q : String)
deriving Repr, DecidableEq

/-- One full event cycle: apply the event's handler, then the
focus/selection sync effect against the recomputed visible list. -/
def applyEvent (data : List RawGroup) (ev : Event) (s : AppState) : AppState :=
  match ev with
  | .key e => syncSelection data (onAsideKeyDown data e s)
  | .searchEdit q => syncSelection data (setQuery q s)

/-- Run a sequence of events oldest-first. -/
def runEvents (data : List RawGroup) (evs : List Event) (s : AppState) : AppState :=
  evs.foldl (fun st ev => applyEvent data ev st) s

/-- The initial state of the component (lines 304-311). -/
def initState : AppState :=
  { selected := none, searchTerm := "", focusedIndex := -1,
    openGroups := [], openCategories := [], typeSelectBuffer := "" }

/-! ### Sample datasets for witnesses and counterexamples -/

/-- A raw item with a fixed definition and no tags. -/
def exItem (t : String) : RawItem := ⟨t, "d", []⟩

/-- One group `Zz` with one category `Zy` holding `Acid`, `Acidity`, `Base`. -/
def exData : List RawGroup :=
  [⟨"Zz", [⟨"Zy", [exItem "Acid", exItem "Acidity", exItem "Base"]⟩]⟩]

/-- A single-character key event with no modifier besides Shift, with
focus outside any text field. -/
def keyChar (c : Char) (sh : Bool) : KeyEvent :=
  ⟨String.mk [c], false, false, false, sh, false⟩

/-- A plain Enter key event, focus outside any text field. -/
def keyEnter : KeyEvent := ⟨"Enter", false, false, false, false, false⟩

/-- Option/Alt + ArrowRight, focus outside any text field. -/
def keyAltRight : KeyEvent := ⟨"ArrowRight", false, false, true, false, false⟩

/-- Option/Alt + ArrowLeft, focus outside any text field. -/
def keyAltLeft : KeyEvent := ⟨"ArrowLeft", false, false, true, false, false⟩

/-- A plain ArrowDown key event, focus outside any text field. -/
def keyDown : KeyEvent := ⟨"ArrowDown", false, false, false, false, false⟩

/-- A plain ArrowUp key event, focus outside any text field. -/
def keyUp : KeyEvent := ⟨"ArrowUp", false, false, false, false, false⟩

/-- Sample state: group `Zz` and category `Zy` both open, no cursor. -/
def stOpen : AppState :=
  { initState with openGroups := [("Zz", true)], openCategories := [("Zz::Zy", true)] }

/-- Sample state: everything collapsed, cursor on the group header. -/
def stG0 : AppState := { initState with focusedIndex := 0 }

/-- Sample state: group `Zz` open, cursor on the category header at index 1. -/
def stGrpOpen : AppState :=
  { initState with openGroups := [("Zz", true)], focusedIndex := 1 }

/-- Sample state: fully open view with type-ahead buffer `"a"`. -/
def stBufA : AppState := { stOpen with typeSelectBuffer := "a" }

/-- The state reached from `stOpen` by typing `a`: buffer `"a"`, cursor
on the item `Acid` at index 2. -/
def stAfterA : AppState := { stOpen with typeSelectBuffer := "a", focusedIndex := 2 }

/-- The cursor invariant: `focusedIndex` is `-1` or a valid index of
the Visible List. -/
def cursorOk (vis : List VisibleNode) (fi : Int) : Prop :=
  fi = -1 ∨ (0 ≤ fi ∧ fi.toNat < vis.length)

/-- Run a sequence of aside key events, oldest first, each followed by
the focus/selection sync. -/
def runKeys (data : List RawGroup) (es : List KeyEvent) (s : AppState) : AppState :=
  es.foldl (fun st e => applyEvent data (.key e) st) s

/-- No group name of the dataset contains a colon, so the
`"<group>::<category>"` keys of distinct groups cannot collide. -/
def colonFreeGroups (data : List RawGroup) : Prop :=
  ∀ r ∈ data, ∀ ch ∈ r.group.data, ch ≠ ':'

/-- A dataset with a duplicated group name `A`. -/
def dupData : List RawGroup :=
  [⟨"A", [⟨"X", [exItem "T1"]⟩]⟩, ⟨"A", [⟨"Y", [exItem "T2"]⟩]⟩]

/-- A dataset whose `openCategories` keys collide: both `("a::b", "c")`
and `("a", "b::c")` map to the key `"a::b::c"`. -/
def colonData : List RawGroup :=
  [⟨"a::b", [⟨"c", [exItem "T1"]⟩]⟩, ⟨"a", [⟨"b::c", [exItem "T2"]⟩]⟩]

/-- State over `colonData`: both groups open, the shared category key
open, cursor on the second category header at index 4. -/
def stColon : AppState :=
  { initState with openGroups := [("a::b", true), ("a", true)],
                   openCategories := [("a::b::c", true)], focusedIndex := 4 }

/-- State over `dupData`: the duplicated group open, cursor on the
second `A` group header at index 3. -/
def stDup : AppState :=
  { initState with openGroups := [("A", true)], focusedIndex := 3 }

/-! ### Lemmas about the object maps -/

namespace ObjMap

@[simp] theorem lookup_nil (k : String) : lookup [] k = none := rfl

@[simp] theorem lookup_eraseKey_self (m : ObjMap) (k : String) :
    lookup (eraseKey k m) k = none := by
  induction m with
  | nil => rfl
  | cons p rest ih =>
    obtain ⟨k', v⟩ := p
    by_cases h : k' = k
    · simpa [eraseKey, h] using ih
    · simpa [eraseKey, h, lookup] using ih

theorem lookup_eraseKey_ne (m : ObjMap) (k k' : String) (h : k' ≠ k) :
    lookup (eraseKey k m) k' = lookup m k' := by
  induction m with
  | nil => rfl
  | cons p rest ih =>
    obtain ⟨k'', v⟩ := p
    by_cases h2 : k'' = k
    · subst h2
      simp [eraseKey, lookup, Ne.symm h, ih]
    · by_cases h3 : k'' = k' <;> simp [eraseKey, lookup, h2, h3, h, ih]

@[simp] theorem lookup_set_self (m : ObjMap) (k : String) (v : Bool) :
    lookup (set m k v) k = some v := by
  simp [set, lookup]

theorem lookup_set_ne (m : ObjMap) (k k' : String) (v : Bool) (h : k' ≠ k) :
    lookup (set m k v) k' = lookup m k' := by
  simp only [set, lookup, if_neg (Ne.symm h)]
  exact lookup_eraseKey_ne m k k' h

@[simp] theorem get_set_self (m : ObjMap) (k : String) (v : Bool) :
    get (set m k v) k = v := by
  simp [get]

theorem get_set_ne (m : ObjMap) (k k' : String) (v : Bool) (h : k' ≠ k) :
    get (set m k v) k' = get m k' := by
  simp [get, lookup_set_ne m k k' v h]

theorem get_eraseKey_ne (m : ObjMap) (k k' : String) (h : k' ≠ k) :
    get (eraseKey k m) k' = get m k' := by
  simp [get, lookup_eraseKey_ne m k k' h]

end ObjMap

/-! ### Generic list lemmas for the embedding -/

theorem mem_concatMap {f : α → List β} {l : List α} {b : β} :
    b ∈ concatMap f l ↔ ∃ a ∈ l, b ∈ f a := by
  induction l with
  | nil => simp [concatMap]
  | cons x xs ih => simp [concatMap, ih, List.mem_append, or_and_right, exists_or]

theorem length_concatMap_le {f g : α → List β} {l : List α}
    (h : ∀ a ∈ l, (f a).length ≤ (g a).length) :
    (concatMap f l).length ≤ (concatMap g l).length := by
  induction l with
  | nil => simp [concatMap]
  | cons x xs ih =>
    simp only [concatMap, List.length_append]
    exact Nat.add_le_add (h x (by simp)) (ih (fun a ha => h a (by simp [ha])))

theorem concatMap_append (f : α → List β) (l₁ l₂ : List α) :
    concatMap f (l₁ ++ l₂) = concatMap f l₁ ++ concatMap f l₂ := by
  induction l₁ with
  | nil => simp [concatMap]
  | cons x xs ih => simp [concatMap, ih]

theorem concatMap_congr {f g : α → List β} {l : List α}
    (h : ∀ a ∈ l, f a = g a) : concatMap f l = concatMap g l := by
  induction l with
  | nil => rfl
  | cons x xs ih =>
    simp only [concatMap, h x (by simp)]
    rw [ih (fun a ha => h a (by simp [ha]))]

theorem findIndexOpt_some_lt {p : α → Bool} {l : List α} {i : Nat}
    (h : findIndexOpt p l = some i) : i < l.length := by
  induction l generalizing i with
  | nil => exact absurd h (by simp [findIndexOpt])
  | cons x xs ih =>
    simp only [findIndexOpt] at h
    by_cases hx : p x
    · rw [if_pos hx] at h
      cases h
      simp
    · rw [if_neg hx] at h
      match hr : findIndexOpt p xs with
      | none => rw [hr] at h; simp at h
      | some j =>
        rw [hr] at h
        simp only [Option.map] at h
        cases h
        have := ih hr
        simp only [List.length_cons]
        omega

theorem mem_posFrom_lt {t : NodeType} {i : Nat} {l : List VisibleNode} :
    ∀ {n : Nat}, i ∈ posFrom t n l → i < n + l.length := by
  induction l with
  | nil => intro n h; simp [posFrom] at h
  | cons v rest ih =>
    intro n h
    simp only [posFrom] at h
    by_cases hv : nodeType v == t
    · rw [if_pos hv] at h
      rcases List.mem_cons.mp h with h1 | h2
      · subst h1; simp only [List.length_cons]; omega
      · have := ih h2
        simp only [List.length_cons]
        omega
    · rw [if_neg hv] at h
      have := ih h
      simp only [List.length_cons]
      omega

theorem mem_positions_lt {t : NodeType} {i : Nat} {vis : List VisibleNode}
    (h : i ∈ positions vis t) : i < vis.length := by
  have := mem_posFrom_lt h
  simpa using this

theorem lastBelow_mem {fi : Int} {l : List Nat} {i : Nat}
    (h : lastBelow fi l = some i) : i ∈ l := by
  induction l with
  | nil => simp [lastBelow] at h
  | cons j rest ih =>
    simp only [lastBelow] at h
    match hr : lastBelow fi rest with
    | some k => rw [hr] at h; cases h; exact List.mem_cons_of_mem _ (ih hr)
    | none =>
      rw [hr] at h
      by_cases hj : (j : Int) < fi
      · rw [if_pos hj] at h; cases h; exact List.mem_cons_self _ _
      · rw [if_neg hj] at h; cases h

theorem firstAbove_mem {fi : Int} {l : List Nat} {i : Nat}
    (h : firstAbove fi l = some i) : i ∈ l := by
  induction l with
  | nil => simp [firstAbove] at h
  | cons j rest ih =>
    simp only [firstAbove] at h
    by_cases hj : fi < (j : Int)
    · rw [if_pos hj] at h; cases h; exact List.mem_cons_self _ _
    · rw [if_neg hj] at h; exact List.mem_cons_of_mem _ (ih h)

/-! ### Lemmas about the view builder -/

theorem nodeGroup_of_mem_catBlock {data : List RawGroup} {oc : ObjMap} {g c : String}
    {n : VisibleNode} (h : n ∈ catBlock data oc g c) : nodeGroup n = g := by
  simp only [catBlock, List.mem_cons] at h
  rcases h with h | h
  · subst h; rfl
  · by_cases ho : oc.get (catKey g c)
    · rw [if_pos ho] at h
      rcases List.mem_map.mp h with ⟨e, he, rfl⟩
      have := List.of_mem_filter (p := fun (i : Entry) => i.group == g && i.category == c) he
      simp only [Bool.and_eq_true, beq_iff_eq] at this
      exact this.1
    · rw [if_neg ho] at h; simp at h

theorem nodeGroup_of_mem_groupSegment {data : List RawGroup} {og oc : ObjMap} {g : String}
    {n : VisibleNode} (h : n ∈ groupSegment data og oc g) : nodeGroup n = g := by
  simp only [groupSegment, List.mem_cons] at h
  rcases h with h | h
  · subst h; rfl
  · by_cases ho : og.get g
    · rw [if_pos ho] at h
      rcases mem_concatMap.mp h with ⟨c, _, hc⟩
      exact nodeGroup_of_mem_catBlock hc
    · rw [if_neg ho] at h; simp at h

/-! ### Claim theorems -/

/-- C2.  For every entry store and every query whose normalized form is
non-empty, the Visible List in Search Mode is exactly the filtered
entries mapped to Item nodes: only items, exactly the entries whose
lowercased term contains the lowercased trimmed query, in the entry
store's original relative order (the filter is a sublist of `allItems`). -/
theorem search_flattening (data : List RawGroup) (og oc : ObjMap) (q : String)
    (h : trimmedTerm q ≠ "") :
    buildVisible data og oc (trimmedTerm q) =
      ((allItems data).filter
        (fun i => strIncludes (strLower i.term) (trimmedTerm q))).map .item
    ∧ (∀ n ∈ buildVisible data og oc (trimmedTerm q), ∃ e, n = .item e)
    ∧ ((allItems data).filter
        (fun i => strIncludes (strLower i.term) (trimmedTerm q))).Sublist (allItems data)
    ∧ (∀ e : Entry,
        e ∈ (allItems data).filter (fun i => strIncludes (strLower i.term) (trimmedTerm q))
          ↔ e ∈ allItems data ∧ strIncludes (strLower e.term) (trimmedTerm q) = true) := by
  have hb : (trimmedTerm q == "") = false := by
    simpa [beq_iff_eq] using h
  refine ⟨?_, ?_, List.filter_sublist _, fun e => by simp [List.mem_filter]⟩
  · simp [buildVisible, filteredItems, hb]
  · intro n hn
    simp only [buildVisible, filteredItems, hb, Bool.false_eq_true, if_false] at hn
    rcases List.mem_map.mp hn with ⟨e, _, rfl⟩
    exact ⟨e, rfl⟩

/-- C2 witness: the theorem applied to the sample dataset and query `"a"`. -/
theorem search_flattening_witness :
    trimmedTerm "a" ≠ "" ∧
    buildVisible exData [] [] (trimmedTerm "a") =
      ((allItems exData).filter
        (fun i => strIncludes (strLower i.term) (trimmedTerm "a"))).map .item :=
  ⟨by decide, (search_flattening exData [] [] "a" (by decide)).1⟩

/-! Lemmas about `foldl` over the category keys, for C4. -/

theorem lookup_foldl_set_not_mem {kf : String → String} {cs : List String} {oc : ObjMap}
    {k : String} (h : ∀ c ∈ cs, kf c ≠ k) :
    ObjMap.lookup (cs.foldl (fun m c => m.set (kf c) true) oc) k = oc.lookup k := by
  induction cs generalizing oc with
  | nil => rfl
  | cons c rest ih =>
    simp only [List.foldl_cons]
    rw [ih (fun c' hc' => h c' (List.mem_cons_of_mem _ hc'))]
    exact ObjMap.lookup_set_ne _ _ _ _
      (fun he => h c (List.mem_cons_self _ _) he.symm)

theorem lookup_foldl_set_mem {kf : String → String} {cs : List String} {oc : ObjMap}
    {k : String} (hk : ∃ c ∈ cs, kf c = k) :
    ObjMap.lookup (cs.foldl (fun m c => m.set (kf c) true) oc) k = some true := by
  induction cs generalizing oc with
  | nil => simp at hk
  | cons c0 rest ih =>
    simp only [List.foldl_cons]
    by_cases hr : ∃ c' ∈ rest, kf c' = k
    · exact ih hr
    · push_neg at hr
      have hc0 : kf c0 = k := by
        rcases hk with ⟨c, hc, he⟩
        rcases List.mem_cons.mp hc with h1 | h1
        · exact h1 ▸ he
        · exact absurd he (hr c h1)
      rw [lookup_foldl_set_not_mem hr, ← hc0]
      exact ObjMap.lookup_set_self _ _ _

theorem lookup_foldl_erase_not_mem {kf : String → String} {cs : List String} {oc : ObjMap}
    {k : String} (h : ∀ c ∈ cs, kf c ≠ k) :
    ObjMap.lookup (cs.foldl (fun m c => ObjMap.eraseKey (kf c) m) oc) k = oc.lookup k := by
  induction cs generalizing oc with
  | nil => rfl
  | cons c rest ih =>
    simp only [List.foldl_cons]
    rw [ih (fun c' hc' => h c' (List.mem_cons_of_mem _ hc'))]
    exact ObjMap.lookup_eraseKey_ne _ _ _
      (fun he => h c (List.mem_cons_self _ _) he.symm)

theorem lookup_foldl_erase_mem {kf : String → String} {cs : List String} {oc : ObjMap}
    {k : String} (hk : ∃ c ∈ cs, kf c = k) :
    ObjMap.lookup (cs.foldl (fun m c => ObjMap.eraseKey (kf c) m) oc) k = none := by
  induction cs generalizing oc with
  | nil => simp at hk
  | cons c0 rest ih =>
    simp only [List.foldl_cons]
    by_cases hr : ∃ c' ∈ rest, kf c' = k
    · exact ih hr
    · push_neg at hr
      have hc0 : kf c0 = k := by
        rcases hk with ⟨c, hc, he⟩
        rcases List.mem_cons.mp hc with h1 | h1
        · exact h1 ▸ he
        · exact absurd he (hr c h1)
      rw [lookup_foldl_erase_not_mem hr, ← hc0]
      exact ObjMap.lookup_eraseKey_self _ _

/-- C4.  Expand-fully, collapse-fully, expand-fully on a group `g` ends
with `openGroups[g]` true and every category under `g` open; and the
intermediate collapse *removes* (deletes, rather than sets to false)
every `openCategories` entry under `g`, so no stale partial-open state
survives. -/
theorem expand_collapse_expand (data : List RawGroup) (tq g : String) (og oc : ObjMap) :
    (expandGroupFully data tq g
      (collapseGroupFully data tq g
        (expandGroupFully data tq g og oc).1 (expandGroupFully data tq g og oc).2).1
      (collapseGroupFully data tq g
        (expandGroupFully data tq g og oc).1 (expandGroupFully data tq g og oc).2).2).1.get g
      = true
    ∧ (∀ c ∈ categoriesByGroup data tq g,
        ObjMap.lookup
          (expandGroupFully data tq g
            (collapseGroupFully data tq g
              (expandGroupFully data tq g og oc).1 (expandGroupFully data tq g og oc).2).1
            (collapseGroupFully data tq g
              (expandGroupFully data tq g og oc).1
              (expandGroupFully data tq g og oc).2).2).2
          (catKey g c) = some true)
    ∧ (∀ c ∈ categoriesByGroup data tq g,
        ObjMap.lookup
          (collapseGroupFully data tq g
            (expandGroupFully data tq g og oc).1 (expandGroupFully data tq g og oc).2).2
          (catKey g c) = none) := by
  refine ⟨by simp [expandGroupFully, ObjMap.get], ?_, ?_⟩
  · intro c hc
    simp only [expandGroupFully]
    exact lookup_foldl_set_mem ⟨c, hc, rfl⟩
  · intro c hc
    simp only [collapseGroupFully]
    exact lookup_foldl_erase_mem ⟨c, hc, rfl⟩

/-- C4 witness: the round trip on the sample dataset's group `Zz`,
whose single category is `Zy`. -/
theorem expand_collapse_expand_witness :
    "Zy" ∈ categoriesByGroup exData "" "Zz" ∧
    ObjMap.lookup
      (expandGroupFully exData "" "Zz"
        (collapseGroupFully exData "" "Zz"
          (expandGroupFully exData "" "Zz" [] []).1 (expandGroupFully exData "" "Zz" [] []).2).1
        (collapseGroupFully exData "" "Zz"
          (expandGroupFully exData "" "Zz" [] []).1
          (expandGroupFully exData "" "Zz" [] []).2).2).2
      (catKey "Zz" "Zy") = some true :=
  ⟨by decide,
   (expand_collapse_expand exData "" "Zz" [] []).2.1 "Zy" (by decide)⟩

/-- C7.  In Browse Mode, for a group `g` whose `openGroups` flag is
false or absent, the only node of the Visible List whose group is `g`
is `g`'s own GroupHeader, regardless of `openCategories`. -/
theorem closed_group_invariant (data : List RawGroup) (og oc : ObjMap) (q g : String)
    (hq : trimmedTerm q = "") (hg : og.get g = false) :
    ∀ n ∈ buildVisible data og oc (trimmedTerm q), nodeGroup n = g → n = .group g := by
  intro n hn hng
  rw [hq] at hn
  simp only [buildVisible, if_pos rfl] at hn
  rcases mem_concatMap.mp hn with ⟨grp, _, hseg⟩
  have hgrp : grp = g := by rw [← hng]; exact (nodeGroup_of_mem_groupSegment hseg).symm
  subst hgrp
  simp only [groupSegment, hg, Bool.false_eq_true, if_false, List.mem_cons] at hseg
  rcases hseg with h | h
  · exact h
  · simp at h

/-- C7 witness: with `Zz` closed, the only node of the sample view with
group `Zz` is its header. -/
theorem closed_group_invariant_witness :
    trimmedTerm "" = "" ∧ ObjMap.get [] "Zz" = false ∧
    VisibleNode.group "Zz" = VisibleNode.group "Zz" :=
  ⟨rfl, rfl,
   closed_group_invariant exData [] [("Zz::Zy", true)] "" "Zz" rfl rfl
     (.group "Zz") (by decide) rfl⟩

/-- C8.  The focus/selection sync: when the node at `focusedIndex` is an
Item, Selection becomes that entry (auto-select-on-focus); when it is a
GroupHeader or CategoryHeader, or the cursor is out of range, Selection
is left unchanged (sticky). -/
theorem auto_select_on_focus (data : List RawGroup) (s : AppState) :
    (∀ it, visAt (visibleOf data s) s.focusedIndex = some (.item it) →
        (syncSelection data s).selected = some it)
    ∧ (∀ g, visAt (visibleOf data s) s.focusedIndex = some (.group g) →
        (syncSelection data s).selected = s.selected)
    ∧ (∀ g c, visAt (visibleOf data s) s.focusedIndex = some (.category g c) →
        (syncSelection data s).selected = s.selected)
    ∧ (visAt (visibleOf data s) s.focusedIndex = none →
        (syncSelection data s).selected = s.selected) := by
  refine ⟨?_, ?_, ?_, ?_⟩
  · intro it h; simp [syncSelection, h]
  · intro g h; simp [syncSelection, h]
  · intro g c h; simp [syncSelection, h]
  · intro h; simp [syncSelection, h]

/-- C8 witness: on the fully open sample view, focusing index 2 (the
item `Acid`) selects it; focusing index 0 (a header) keeps a previous
selection. -/
theorem auto_select_on_focus_witness :
    visAt (visibleOf exData
        { initState with openGroups := [("Zz", true)],
                         openCategories := [("Zz::Zy", true)], focusedIndex := 2 }) 2
      = some (.item ⟨"Zz", "Zy", "Acid", "d", []⟩) ∧
    (syncSelection exData
        { initState with openGroups := [("Zz", true)],
                         openCategories := [("Zz::Zy", true)], focusedIndex := 2 }).selected
      = some ⟨"Zz", "Zy", "Acid", "d", []⟩ :=
  ⟨by decide,
   (auto_select_on_focus exData
      { initState with openGroups := [("Zz", true)],
                       openCategories := [("Zz::Zy", true)], focusedIndex := 2 }).1
     ⟨"Zz", "Zy", "Acid", "d", []⟩ (by decide)⟩

/-- C9.  A search edit changes only the stored query: `openGroups` and
`openCategories` are untouched, and editing to any query and back to
the original yields a Visible List identical to the one before. -/
theorem search_mode_frame (data : List RawGroup) (s : AppState) (q : String) :
    (applyEvent data (.searchEdit q) s).openGroups = s.openGroups
    ∧ (applyEvent data (.searchEdit q) s).openCategories = s.openCategories
    ∧ visibleOf data
        (applyEvent data (.searchEdit s.searchTerm) (applyEvent data (.searchEdit q) s))
      = visibleOf data s := by
  have hsync : ∀ t : AppState,
      (syncSelection data t).openGroups = t.openGroups ∧
      (syncSelection data t).openCategories = t.openCategories ∧
      (syncSelection data t).searchTerm = t.searchTerm := by
    intro t
    unfold syncSelection
    split <;> exact ⟨rfl, rfl, rfl⟩
  have hvis : ∀ t u : AppState, t.openGroups = u.openGroups →
      t.openCategories = u.openCategories → t.searchTerm = u.searchTerm →
      visibleOf data t = visibleOf data u := by
    intro t u h1 h2 h3
    unfold visibleOf
    rw [h1, h2, h3]
  refine ⟨?_, ?_, ?_⟩
  · rw [show applyEvent data (.searchEdit q) s = syncSelection data (setQuery q s) from rfl]
    exact (hsync _).1
  · exact (hsync _).2.1
  · apply hvis
    · rw [show applyEvent data (.searchEdit s.searchTerm)
            (applyEvent data (.searchEdit q) s)
          = syncSelection data (setQuery s.searchTerm (applyEvent data (.searchEdit q) s))
          from rfl]
      rw [(hsync _).1]
      rw [show applyEvent data (.searchEdit q) s = syncSelection data (setQuery q s) from rfl]
      exact (hsync _).1
    · rw [show applyEvent data (.searchEdit s.searchTerm)
            (applyEvent data (.searchEdit q) s)
          = syncSelection data (setQuery s.searchTerm (applyEvent data (.searchEdit q) s))
          from rfl]
      rw [(hsync _).2.1]
      rw [show applyEvent data (.searchEdit q) s = syncSelection data (setQuery q s) from rfl]
      exact (hsync _).2.1
    · rw [show applyEvent data (.searchEdit s.searchTerm)
            (applyEvent data (.searchEdit q) s)
          = syncSelection data (setQuery s.searchTerm (applyEvent data (.searchEdit q) s))
          from rfl]
      exact (hsync _).2.2

/-! ### Lemmas about the dispatcher branches -/

theorem startsChars_nil (l : List Char) : startsChars l [] = true := by
  cases l <;> rfl

theorem strStarts_empty (s : String) : strStarts s "" = true := startsChars_nil s.data

theorem findIndexOpt_cons_true {p : α → Bool} {v : α} {l : List α} (h : p v = true) :
    findIndexOpt p (v :: l) = some 0 := by
  simp [findIndexOpt, h]

/-- For a single-character key with no Ctrl/Meta/Alt, outside a text
field, the dispatcher takes the type-to-select branch. -/
theorem onAside_keyChar (data : List RawGroup) (s : AppState) (c : Char) (sh : Bool) :
    onAsideKeyDown data (keyChar c sh) s
      = typeAheadStep (visibleOf data s) (keyChar c sh) s := rfl

/-- Enter skips type-ahead and the modifier branches. -/
theorem onAside_enter (data : List RawGroup) (s : AppState) :
    onAsideKeyDown data keyEnter s
      = dispatchOnEl data (trimmedTerm s.searchTerm) (visibleOf data s) keyEnter s := rfl

/-- Alt+ArrowRight skips type-ahead, the meta branch and the tier jump. -/
theorem onAside_altRight (data : List RawGroup) (s : AppState) :
    onAsideKeyDown data keyAltRight s
      = dispatchOnEl data (trimmedTerm s.searchTerm) (visibleOf data s) keyAltRight s := rfl

/-- Alt+ArrowLeft skips type-ahead, the meta branch and the tier jump. -/
theorem onAside_altLeft (data : List RawGroup) (s : AppState) :
    onAsideKeyDown data keyAltLeft s
      = dispatchOnEl data (trimmedTerm s.searchTerm) (visibleOf data s) keyAltLeft s := rfl

/-- The type-to-select branch changes only the buffer and the cursor. -/
theorem typeAheadStep_frame (vis : List VisibleNode) (e : KeyEvent) (s : AppState) :
    (typeAheadStep vis e s).openGroups = s.openGroups
    ∧ (typeAheadStep vis e s).openCategories = s.openCategories
    ∧ (typeAheadStep vis e s).selected = s.selected
    ∧ (typeAheadStep vis e s).searchTerm = s.searchTerm := by
  cases hfi : findIndexOpt
      (fun el => strStarts (strLower (getLabel el))
        (strLower (strTrim (s.typeSelectBuffer ++ e.key)))) vis with
  | none => simp [typeAheadStep, hfi]
  | some idx => simp [typeAheadStep, hfi]

/-- C10.  A Space keystroke outside a text field with no Ctrl/Meta/Alt
and an empty type-ahead buffer leaves the buffer empty (the appended
space is trimmed away), changes no disclosure state and no selection
(it never reaches the activation branch), and moves the cursor to index
0 whenever the Visible List is non-empty; on an empty list the cursor
is unchanged. -/
theorem space_empty_buffer (data : List RawGroup) (s : AppState) (sh : Bool)
    (hbuf : s.typeSelectBuffer = "") :
    (onAsideKeyDown data (keyChar ' ' sh) s).typeSelectBuffer = ""
    ∧ (onAsideKeyDown data (keyChar ' ' sh) s).openGroups = s.openGroups
    ∧ (onAsideKeyDown data (keyChar ' ' sh) s).openCategories = s.openCategories
    ∧ (onAsideKeyDown data (keyChar ' ' sh) s).selected = s.selected
    ∧ (visibleOf data s ≠ [] → (onAsideKeyDown data (keyChar ' ' sh) s).focusedIndex = 0)
    ∧ (visibleOf data s = [] →
        (onAsideKeyDown data (keyChar ' ' sh) s).focusedIndex = s.focusedIndex) := by
  rw [onAside_keyChar]
  have hb : strTrim (s.typeSelectBuffer ++ (keyChar ' ' sh).key) = "" := by
    rw [hbuf]
    show strTrim ("" ++ String.mk [' ']) = ""
    decide
  have hsl : strLower "" = ("" : String) := rfl
  have hmain : typeAheadStep (visibleOf data s) (keyChar ' ' sh) s
      = (match findIndexOpt (fun el => strStarts (strLower (getLabel el)) "")
            (visibleOf data s) with
         | some idx => { s with typeSelectBuffer := "", focusedIndex := (idx : Int) }
         | none => { s with typeSelectBuffer := "" }) := by
    simp only [typeAheadStep, hb, hsl]
  rw [hmain]
  cases hv : visibleOf data s with
  | nil =>
    exact ⟨rfl, rfl, rfl, rfl, fun h => absurd rfl h, fun _ => rfl⟩
  | cons v rest =>
    rw [findIndexOpt_cons_true
      (p := fun el => strStarts (strLower (getLabel el)) "") (strStarts_empty _)]
    exact ⟨rfl, rfl, rfl, rfl, fun _ => rfl, fun h => List.noConfusion h⟩

/-- C10 witness: on the sample dataset from the initial state, Space
with an empty buffer moves the cursor to the first visible node. -/
theorem space_empty_buffer_witness :
    initState.typeSelectBuffer = "" ∧ visibleOf exData initState ≠ [] ∧
    (onAsideKeyDown exData (keyChar ' ' false) initState).focusedIndex = 0 :=
  ⟨rfl, by decide,
   (space_empty_buffer exData initState false rfl).2.2.2.2.1 (by decide)⟩

/-- C3 counterexample: with the cursor on the closed GroupHeader `Zz`
and input focus outside a text field, a Space key event does not toggle
the group open — it is captured by the type-to-select branch — although
the claim says Enter or Space toggles it. -/
theorem enter_space_activation_cex :
    visAt (visibleOf exData stG0) stG0.focusedIndex = some (.group "Zz")
    ∧ stG0.openGroups.get "Zz" = false
    ∧ (onAsideKeyDown exData (keyChar ' ' false) stG0).openGroups.get "Zz" = false := by
  decide

/-- C3 amended.  With the cursor on a node and input focus outside a
text field: an Enter key event toggles the open state of a GroupHeader
or CategoryHeader and sets Selection on an Item; a Space key event is
captured by the type-to-select branch instead and changes no disclosure
state and no selection. -/
theorem enter_activation (data : List RawGroup) (s : AppState) :
    (∀ g, visAt (visibleOf data s) s.focusedIndex = some (.group g) →
        (onAsideKeyDown data keyEnter s).openGroups
          = s.openGroups.set g (! s.openGroups.get g)
        ∧ (onAsideKeyDown data keyEnter s).openCategories = s.openCategories
        ∧ (onAsideKeyDown data keyEnter s).selected = s.selected)
    ∧ (∀ g c, visAt (visibleOf data s) s.focusedIndex = some (.category g c) →
        (onAsideKeyDown data keyEnter s).openCategories
          = s.openCategories.set (catKey g c) (! s.openCategories.get (catKey g c))
        ∧ (onAsideKeyDown data keyEnter s).openGroups = s.openGroups
        ∧ (onAsideKeyDown data keyEnter s).selected = s.selected)
    ∧ (∀ it, visAt (visibleOf data s) s.focusedIndex = some (.item it) →
        (onAsideKeyDown data keyEnter s).selected = some it
        ∧ (onAsideKeyDown data keyEnter s).openGroups = s.openGroups
        ∧ (onAsideKeyDown data keyEnter s).openCategories = s.openCategories)
    ∧ (∀ sh : Bool,
        (onAsideKeyDown data (keyChar ' ' sh) s).openGroups = s.openGroups
        ∧ (onAsideKeyDown data (keyChar ' ' sh) s).openCategories = s.openCategories
        ∧ (onAsideKeyDown data (keyChar ' ' sh) s).selected = s.selected) := by
  refine ⟨?_, ?_, ?_, ?_⟩
  · intro g hel
    rw [onAside_enter]
    have hstep : dispatchOnEl data (trimmedTerm s.searchTerm) (visibleOf data s) keyEnter s
        = tailStep (visibleOf data s) keyEnter (some (.group g)) s := by
      simp [dispatchOnEl, hel, keyEnter]
    have htail : tailStep (visibleOf data s) keyEnter (some (.group g)) s
        = { s with openGroups := s.openGroups.set g (! s.openGroups.get g) } := by
      simp [tailStep, arrowMove, activateEl, keyEnter]
    rw [hstep, htail]
    exact ⟨rfl, rfl, rfl⟩
  · intro g c hel
    rw [onAside_enter]
    have hstep : dispatchOnEl data (trimmedTerm s.searchTerm) (visibleOf data s) keyEnter s
        = tailStep (visibleOf data s) keyEnter (some (.category g c)) s := by
      simp [dispatchOnEl, hel]
    have htail : tailStep (visibleOf data s) keyEnter (some (.category g c)) s
        = { s with openCategories :=
              s.openCategories.set (catKey g c) (! s.openCategories.get (catKey g c)) } := by
      simp [tailStep, arrowMove, activateEl, keyEnter]
    rw [hstep, htail]
    exact ⟨rfl, rfl, rfl⟩
  · intro it hel
    rw [onAside_enter]
    have hstep : dispatchOnEl data (trimmedTerm s.searchTerm) (visibleOf data s) keyEnter s
        = tailStep (visibleOf data s) keyEnter (some (.item it)) s := by
      simp [dispatchOnEl, hel]
    have htail : tailStep (visibleOf data s) keyEnter (some (.item it)) s
        = { s with selected := some it } := by
      simp [tailStep, arrowMove, activateEl, keyEnter]
    rw [hstep, htail]
    exact ⟨rfl, rfl, rfl⟩
  · intro sh
    rw [onAside_keyChar]
    exact ⟨(typeAheadStep_frame _ _ _).1, (typeAheadStep_frame _ _ _).2.1,
           (typeAheadStep_frame _ _ _).2.2.1⟩

/-- C3 amended witness: Enter on the closed GroupHeader `Zz` toggles it
open. -/
theorem enter_activation_witness :
    visAt (visibleOf exData stG0) stG0.focusedIndex = some (.group "Zz") ∧
    (onAsideKeyDown exData keyEnter stG0).openGroups
      = stG0.openGroups.set "Zz" (! stG0.openGroups.get "Zz") :=
  ⟨by decide, ((enter_activation exData stG0).1 "Zz" (by decide)).1⟩

/-- C6 counterexample: a Space keystroke (a single printable character,
no modifier, focus outside a text field) with buffer `"a"` does not
append the character: the new buffer is the trim `"a"`, not `"a "`. -/
theorem typeahead_append_cex :
    (onAsideKeyDown exData (keyChar ' ' false) stBufA).typeSelectBuffer = "a"
    ∧ ("a" : String) ≠ "a" ++ " " := by
  decide

/-- C6 amended.  For a single-character keystroke outside a text field
with no modifier besides Shift, whenever JS `trim` does not shorten the
appended buffer (every non-whitespace character), the dispatcher
appends the character to the buffer and moves the cursor to the first
node of the Visible List whose label case-insensitively starts with the
new buffer; the cursor is unchanged when no label matches, and no
disclosure or selection state changes. -/
theorem typeahead_char (data : List RawGroup) (s : AppState) (c : Char) (sh : Bool)
    (hnw : strTrim (s.typeSelectBuffer ++ String.mk [c]) = s.typeSelectBuffer ++ String.mk [c]) :
    (onAsideKeyDown data (keyChar c sh) s).typeSelectBuffer
      = s.typeSelectBuffer ++ String.mk [c]
    ∧ (∀ i, findIndexOpt (fun el => strStarts (strLower (getLabel el))
          (strLower (s.typeSelectBuffer ++ String.mk [c]))) (visibleOf data s) = some i →
        (onAsideKeyDown data (keyChar c sh) s).focusedIndex = (i : Int))
    ∧ (findIndexOpt (fun el => strStarts (strLower (getLabel el))
          (strLower (s.typeSelectBuffer ++ String.mk [c]))) (visibleOf data s) = none →
        (onAsideKeyDown data (keyChar c sh) s).focusedIndex = s.focusedIndex)
    ∧ (onAsideKeyDown data (keyChar c sh) s).openGroups = s.openGroups
    ∧ (onAsideKeyDown data (keyChar c sh) s).openCategories = s.openCategories
    ∧ (onAsideKeyDown data (keyChar c sh) s).selected = s.selected := by
  rw [onAside_keyChar]
  have hkey : (keyChar c sh).key = String.mk [c] := rfl
  simp only [typeAheadStep, hkey, hnw]
  cases hfi : findIndexOpt (fun el => strStarts (strLower (getLabel el))
      (strLower (s.typeSelectBuffer ++ String.mk [c]))) (visibleOf data s) with
  | none =>
    refine ⟨rfl, ?_, fun _ => rfl, rfl, rfl, rfl⟩
    intro i hi
    exact Option.noConfusion hi
  | some idx =>
    refine ⟨rfl, ?_, ?_, rfl, rfl, rfl⟩
    · intro i hi
      cases hi
      rfl
    · intro hn
      exact Option.noConfusion hn

/-- C6 witness: from the fully open sample view, typing `a` focuses the
item `Acid` at index 2, and then typing `c` keeps the focus on `Acid`
(the first match in list order), not `Acidity`. -/
theorem typeahead_char_witness :
    onAsideKeyDown exData (keyChar 'a' false) stOpen = stAfterA
    ∧ findIndexOpt (fun el => strStarts (strLower (getLabel el))
        (strLower (stAfterA.typeSelectBuffer ++ String.mk ['c']))) (visibleOf exData stAfterA)
      = some 2
    ∧ (onAsideKeyDown exData (keyChar 'c' false) stAfterA).focusedIndex = 2
    ∧ visAt (visibleOf exData stAfterA) 2 = some (.item ⟨"Zz", "Zy", "Acid", "d", []⟩) :=
  ⟨by decide, by decide,
   (typeahead_char exData stAfterA 'c' false (by decide)).2.1 2 (by decide),
   by decide⟩

/-- C5 counterexample: Alt+ArrowRight with the cursor on the closed
CategoryHeader `Zy` is not a no-op: it falls through to the plain
ArrowRight branch and opens the category. -/
theorem alt_arrow_cex :
    visAt (visibleOf exData stGrpOpen) stGrpOpen.focusedIndex = some (.category "Zz" "Zy")
    ∧ stGrpOpen.openCategories.get "Zz::Zy" = false
    ∧ (onAsideKeyDown exData keyAltRight stGrpOpen).openCategories.get "Zz::Zy" = true := by
  decide

/-- C5 amended.  Alt+ArrowRight on a closed GroupHeader performs
`expandGroupFully` and Alt+ArrowLeft on an open GroupHeader performs
`collapseGroupFully`; on an Item the event changes no disclosure state;
on a CategoryHeader the event falls through to the plain arrow branch
and sets the category open (Right) or closed (Left); on a group already
in the target state the group's open flags are semantically unchanged
(the flag is rewritten to its current truth value). -/
theorem alt_full_expand_collapse (data : List RawGroup) (s : AppState) :
    (∀ g, visAt (visibleOf data s) s.focusedIndex = some (.group g) →
        s.openGroups.get g = false →
        (onAsideKeyDown data keyAltRight s).openGroups
          = (expandGroupFully data (trimmedTerm s.searchTerm) g
              s.openGroups s.openCategories).1
        ∧ (onAsideKeyDown data keyAltRight s).openCategories
          = (expandGroupFully data (trimmedTerm s.searchTerm) g
              s.openGroups s.openCategories).2)
    ∧ (∀ g, visAt (visibleOf data s) s.focusedIndex = some (.group g) →
        s.openGroups.get g = true →
        (onAsideKeyDown data keyAltLeft s).openGroups
          = (collapseGroupFully data (trimmedTerm s.searchTerm) g
              s.openGroups s.openCategories).1
        ∧ (onAsideKeyDown data keyAltLeft s).openCategories
          = (collapseGroupFully data (trimmedTerm s.searchTerm) g
              s.openGroups s.openCategories).2)
    ∧ (∀ it, visAt (visibleOf data s) s.focusedIndex = some (.item it) →
        (onAsideKeyDown data keyAltRight s).openGroups = s.openGroups
        ∧ (onAsideKeyDown data keyAltRight s).openCategories = s.openCategories
        ∧ (onAsideKeyDown data keyAltLeft s).openGroups = s.openGroups
        ∧ (onAsideKeyDown data keyAltLeft s).openCategories = s.openCategories)
    ∧ (∀ g c, visAt (visibleOf data s) s.focusedIndex = some (.category g c) →
        (onAsideKeyDown data keyAltRight s).openCategories
          = s.openCategories.set (catKey g c) true
        ∧ (onAsideKeyDown data keyAltLeft s).openCategories
          = s.openCategories.set (catKey g c) false
        ∧ (onAsideKeyDown data keyAltRight s).openGroups = s.openGroups
        ∧ (onAsideKeyDown data keyAltLeft s).openGroups = s.openGroups)
    ∧ (∀ g, visAt (visibleOf data s) s.focusedIndex = some (.group g) →
        s.openGroups.get g = true →
        (∀ k, (onAsideKeyDown data keyAltRight s).openGroups.get k = s.openGroups.get k)
        ∧ (onAsideKeyDown data keyAltRight s).openCategories = s.openCategories)
    ∧ (∀ g, visAt (visibleOf data s) s.focusedIndex = some (.group g) →
        s.openGroups.get g = false →
        (∀ k, (onAsideKeyDown data keyAltLeft s).openGroups.get k = s.openGroups.get k)
        ∧ (onAsideKeyDown data keyAltLeft s).openCategories = s.openCategories) := by
  have htailRG : ∀ g, tailStep (visibleOf data s) keyAltRight (some (.group g)) s
      = { s with openGroups := s.openGroups.set g true } := by
    intro g; simp [tailStep, arrowMove, activateEl, keyAltRight]
  have htailLG : ∀ g, tailStep (visibleOf data s) keyAltLeft (some (.group g)) s
      = { s with openGroups := s.openGroups.set g false } := by
    intro g; simp [tailStep, arrowMove, activateEl, keyAltLeft]
  refine ⟨?_, ?_, ?_, ?_, ?_, ?_⟩
  · intro g hel hclosed
    rw [onAside_altRight]
    have hstep : dispatchOnEl data (trimmedTerm s.searchTerm) (visibleOf data s) keyAltRight s
        = { s with
            openGroups := (expandGroupFully data (trimmedTerm s.searchTerm) g
              s.openGroups s.openCategories).1,
            openCategories := (expandGroupFully data (trimmedTerm s.searchTerm) g
              s.openGroups s.openCategories).2 } := by
      simp [dispatchOnEl, hel, hclosed, keyAltRight]
    rw [hstep]
    exact ⟨rfl, rfl⟩
  · intro g hel hopen
    rw [onAside_altLeft]
    have hstep : dispatchOnEl data (trimmedTerm s.searchTerm) (visibleOf data s) keyAltLeft s
        = { s with
            openGroups := (collapseGroupFully data (trimmedTerm s.searchTerm) g
              s.openGroups s.openCategories).1,
            openCategories := (collapseGroupFully data (trimmedTerm s.searchTerm) g
              s.openGroups s.openCategories).2 } := by
      simp [dispatchOnEl, hel, hopen, keyAltLeft]
    rw [hstep]
    exact ⟨rfl, rfl⟩
  · intro it hel
    rw [onAside_altRight, onAside_altLeft]
    have hstepR : dispatchOnEl data (trimmedTerm s.searchTerm) (visibleOf data s) keyAltRight s
        = tailStep (visibleOf data s) keyAltRight (some (.item it)) s := by
      simp [dispatchOnEl, hel]
    have hstepL : dispatchOnEl data (trimmedTerm s.searchTerm) (visibleOf data s) keyAltLeft s
        = tailStep (visibleOf data s) keyAltLeft (some (.item it)) s := by
      simp [dispatchOnEl, hel]
    have htailR : tailStep (visibleOf data s) keyAltRight (some (.item it)) s = s := by
      simp [tailStep, arrowMove, activateEl, keyAltRight]
    have htailL : tailStep (visibleOf data s) keyAltLeft (some (.item it)) s = s := by
      simp [tailStep, arrowMove, activateEl, keyAltLeft]
    rw [hstepR, hstepL, htailR, htailL]
    exact ⟨rfl, rfl, rfl, rfl⟩
  · intro g c hel
    rw [onAside_altRight, onAside_altLeft]
    have hstepR : dispatchOnEl data (trimmedTerm s.searchTerm) (visibleOf data s) keyAltRight s
        = tailStep (visibleOf data s) keyAltRight (some (.category g c)) s := by
      simp [dispatchOnEl, hel]
    have hstepL : dispatchOnEl data (trimmedTerm s.searchTerm) (visibleOf data s) keyAltLeft s
        = tailStep (visibleOf data s) keyAltLeft (some (.category g c)) s := by
      simp [dispatchOnEl, hel]
    have htailR : tailStep (visibleOf data s) keyAltRight (some (.category g c)) s
        = { s with openCategories := s.openCategories.set (catKey g c) true } := by
      simp [tailStep, arrowMove, activateEl, keyAltRight]
    have htailL : tailStep (visibleOf data s) keyAltLeft (some (.category g c)) s
        = { s with openCategories := s.openCategories.set (catKey g c) false } := by
      simp [tailStep, arrowMove, activateEl, keyAltLeft]
    rw [hstepR, hstepL, htailR, htailL]
    exact ⟨rfl, rfl, rfl, rfl⟩
  · intro g hel hopen
    rw [onAside_altRight]
    have hstep : dispatchOnEl data (trimmedTerm s.searchTerm) (visibleOf data s) keyAltRight s
        = tailStep (visibleOf data s) keyAltRight (some (.group g)) s := by
      simp [dispatchOnEl, hel, hopen, keyAltRight]
    rw [hstep, htailRG g]
    refine ⟨fun k => ?_, rfl⟩
    by_cases hk : k = g
    · subst hk
      rw [show ({ s with openGroups := s.openGroups.set k true } : AppState).openGroups
            = s.openGroups.set k true from rfl]
      rw [ObjMap.get_set_self, hopen]
    · exact ObjMap.get_set_ne _ _ _ _ hk
  · intro g hel hclosed
    rw [onAside_altLeft]
    have hstep : dispatchOnEl data (trimmedTerm s.searchTerm) (visibleOf data s) keyAltLeft s
        = tailStep (visibleOf data s) keyAltLeft (some (.group g)) s := by
      simp [dispatchOnEl, hel, hclosed, keyAltLeft]
    rw [hstep, htailLG g]
    refine ⟨fun k => ?_, rfl⟩
    by_cases hk : k = g
    · subst hk
      rw [show ({ s with openGroups := s.openGroups.set k false } : AppState).openGroups
            = s.openGroups.set k false from rfl]
      rw [ObjMap.get_set_self, hclosed]
    · exact ObjMap.get_set_ne _ _ _ _ hk

/-! ### Infrastructure for the cursor-validity claim -/

theorem containsStr_iff {l : List String} {x : String} :
    containsStr l x = true ↔ x ∈ l := by
  induction l with
  | nil => simp [containsStr]
  | cons y t ih =>
    by_cases hy : y = x
    · subst hy; simp [containsStr]
    · simp only [containsStr, if_neg hy]
      rw [ih]
      constructor
      · exact fun h => List.mem_cons_of_mem _ h
      · intro h
        rcases List.mem_cons.mp h with h1 | h1
        · exact absurd h1.symm hy
        · exact h1

theorem uniqAux_spec : ∀ (l seen : List String),
    (uniqAux seen l).Nodup ∧ ∀ x ∈ uniqAux seen l, x ∉ seen := by
  intro l
  induction l with
  | nil => intro seen; exact ⟨List.nodup_nil, by simp [uniqAux]⟩
  | cons x xs ih =>
    intro seen
    by_cases hx : containsStr seen x
    · simp only [uniqAux, if_pos hx]
      exact ih seen
    · simp only [uniqAux, if_neg hx]
      have hih := ih (x :: seen)
      refine ⟨List.nodup_cons.mpr ⟨?_, hih.1⟩, ?_⟩
      · intro hmem
        exact (hih.2 x hmem) (List.mem_cons_self _ _)
      · intro y hy
        rcases List.mem_cons.mp hy with rfl | hy'
        · intro hm
          exact hx (containsStr_iff.mpr hm)
        · exact fun hm => (hih.2 y hy') (List.mem_cons_of_mem _ hm)

theorem uniq_nodup (l : List String) : (uniq l).Nodup := (uniqAux_spec l []).1

/-- `String.data` of an append is the append of the `data` lists. -/
theorem strData_append (a b : String) : (a ++ b).data = a.data ++ b.data := by
  cases a; cases b; rfl

theorem strData_inj {a b : String} (h : a.data = b.data) : a = b := by
  cases a; cases b; exact congrArg String.mk h

/-- A colon-free prefix before a `':'` separator is determined. -/
theorem sepSplit : ∀ {l1 l1' r r' : List Char},
    (∀ ch ∈ l1, ch ≠ ':') → (∀ ch ∈ l1', ch ≠ ':') →
    l1 ++ ':' :: r = l1' ++ ':' :: r' → l1 = l1' ∧ r = r' := by
  intro l1
  induction l1 with
  | nil =>
    intro l1' r r' _ h' he
    cases l1' with
    | nil =>
      simp only [List.nil_append, List.cons.injEq] at he
      exact ⟨rfl, he.2⟩
    | cons a t =>
      simp only [List.nil_append, List.cons_append, List.cons.injEq] at he
      exact absurd he.1.symm (h' a (List.mem_cons_self _ _))
  | cons a t ih =>
    intro l1' r r' h h' he
    cases l1' with
    | nil =>
      simp only [List.cons_append, List.nil_append, List.cons.injEq] at he
      exact absurd he.1 (h a (List.mem_cons_self _ _))
    | cons a' t' =>
      simp only [List.cons_append, List.cons.injEq] at he
      have := ih (fun ch hch => h ch (List.mem_cons_of_mem _ hch))
        (fun ch hch => h' ch (List.mem_cons_of_mem _ hch)) he.2
      exact ⟨by rw [he.1, this.1], this.2⟩

theorem catKey_data (g c : String) :
    (catKey g c).data = g.data ++ ':' :: ':' :: c.data := by
  simp [catKey, strData_append]

/-- With colon-free group names, the `"<group>::<category>"` keys are
injective. -/
theorem catKey_inj {g g' c c' : String}
    (hg : ∀ ch ∈ g.data, ch ≠ ':') (hg' : ∀ ch ∈ g'.data, ch ≠ ':')
    (h : catKey g c = catKey g' c') : g = g' ∧ c = c' := by
  have hd : g.data ++ ':' :: ':' :: c.data = g'.data ++ ':' :: ':' :: c'.data := by
    rw [← catKey_data, ← catKey_data, h]
  have h1 := sepSplit hg hg' hd
  refine ⟨strData_inj h1.1, strData_inj ?_⟩
  simpa using h1.2

/-- The `"<group>::<category>"` keys separate categories of one group. -/
theorem catKey_inj_right {g c c' : String} (h : catKey g c = catKey g c') : c = c' := by
  have hd := catKey_data g c ▸ catKey_data g c' ▸ congrArg String.data h
  have := List.append_cancel_left hd
  apply strData_inj
  simpa using this

theorem visAt_some {vis : List VisibleNode} {fi : Int} {el : VisibleNode}
    (h : visAt vis fi = some el) :
    0 ≤ fi ∧ fi.toNat < vis.length ∧ vis.get? fi.toNat = some el := by
  unfold visAt at h
  by_cases h0 : fi < 0
  · rw [if_pos h0] at h; cases h
  · rw [if_neg h0] at h
    refine ⟨by omega, ?_, h⟩
    by_contra hge
    push_neg at hge
    rw [List.get?_eq_none.mpr hge] at h
    cases h

theorem get?_middle_unique {α : Type} {l₁ l₂ : List α} {x : α} {n : Nat}
    (h : (l₁ ++ x :: l₂).get? n = some x) (h1 : x ∉ l₁) (h2 : x ∉ l₂) :
    n = l₁.length := by
  rcases Nat.lt_trichotomy n l₁.length with hlt | heq | hgt
  · exact absurd (List.get?_mem (by rwa [List.get?_append hlt] at h)) h1
  · exact heq
  · exfalso
    rw [List.get?_append_right (by omega)] at h
    have hn : n - l₁.length = (n - l₁.length - 1) + 1 := by omega
    rw [hn, List.get?_cons_succ] at h
    exact h2 (List.get?_mem h)

/-- C5 amended witness: Alt+ArrowRight on the closed GroupHeader `Zz`
expands the group and its category fully. -/
theorem alt_full_expand_collapse_witness :
    visAt (visibleOf exData stG0) stG0.focusedIndex = some (.group "Zz")
    ∧ stG0.openGroups.get "Zz" = false
    ∧ (onAsideKeyDown exData keyAltRight stG0).openGroups
        = (expandGroupFully exData (trimmedTerm stG0.searchTerm) "Zz"
            stG0.openGroups stG0.openCategories).1 :=
  ⟨by decide, by decide,
   ((alt_full_expand_collapse exData stG0).1 "Zz" (by decide) (by decide)).1⟩

/-! ### Structure of the Browse-Mode visible list -/

/-- Shorthand for the group-name list of the dataset. -/
theorem groupsOf_browse (data : List RawGroup) :
    groupsOf data "" = data.map (·.group) := rfl

theorem buildVisible_browse (data : List RawGroup) (og oc : ObjMap) :
    buildVisible data og oc ""
      = concatMap (groupSegment data og oc) (data.map (·.group)) := rfl

theorem mem_catBlock_shape {data : List RawGroup} {oc : ObjMap} {g c : String}
    {n : VisibleNode} (h : n ∈ catBlock data oc g c) :
    n = .category g c ∨ ∃ en : Entry, n = .item en := by
  simp only [catBlock, List.mem_cons] at h
  rcases h with h | h
  · exact Or.inl h
  · right
    by_cases ho : oc.get (catKey g c)
    · rw [if_pos ho] at h
      rcases List.mem_map.mp h with ⟨en, _, rfl⟩
      exact ⟨en, rfl⟩
    · rw [if_neg ho] at h; simp at h

theorem mem_groupSegment_shape {data : List RawGroup} {og oc : ObjMap} {g : String}
    {n : VisibleNode} (h : n ∈ groupSegment data og oc g) :
    n = .group g
    ∨ (og.get g = true ∧ ∃ c ∈ categoriesByGroup data "" g, n ∈ catBlock data oc g c) := by
  simp only [groupSegment, List.mem_cons] at h
  rcases h with h | h
  · exact Or.inl h
  · right
    by_cases ho : og.get g
    · rw [if_pos ho] at h
      rcases mem_concatMap.mp h with ⟨c, hc, hcb⟩
      exact ⟨ho, c, hc, hcb⟩
    · rw [if_neg ho] at h; simp at h

theorem group_mem_seg {data : List RawGroup} {og oc : ObjMap} {x g' : String}
    (h : VisibleNode.group x ∈ groupSegment data og oc g') : x = g' := by
  have := nodeGroup_of_mem_groupSegment h
  simpa [nodeGroup] using this

theorem group_not_mem_catBlocks {data : List RawGroup} {oc : ObjMap} {g' x : String}
    {cs : List String} : VisibleNode.group x ∉ concatMap (catBlock data oc g') cs := by
  intro h
  rcases mem_concatMap.mp h with ⟨c', _, hcb⟩
  rcases mem_catBlock_shape hcb with he | ⟨en, he⟩ <;> simp at he

theorem category_mem_seg {data : List RawGroup} {og oc : ObjMap} {g c g' : String}
    (h : VisibleNode.category g c ∈ groupSegment data og oc g') :
    g' = g ∧ og.get g' = true ∧ c ∈ categoriesByGroup data "" g' := by
  rcases mem_groupSegment_shape h with he | ⟨hop, c', hc', hcb⟩
  · simp at he
  · rcases mem_catBlock_shape hcb with he | ⟨en, he⟩
    · simp only [VisibleNode.category.injEq] at he
      exact ⟨he.1.symm, hop, he.2 ▸ hc'⟩
    · simp at he

/-- Congruence for one category block under pointwise-equal open flags. -/
theorem catBlock_congr {data : List RawGroup} {oc oc' : ObjMap} {g c : String}
    (h : oc'.get (catKey g c) = oc.get (catKey g c)) :
    catBlock data oc' g c = catBlock data oc g c := by
  unfold catBlock
  rw [h]

/-- Congruence for one group segment under pointwise-equal open flags. -/
theorem groupSegment_congr {data : List RawGroup} {og og' oc oc' : ObjMap} {g' : String}
    (hog : og'.get g' = og.get g')
    (hoc : ∀ c, oc'.get (catKey g' c) = oc.get (catKey g' c)) :
    groupSegment data og' oc' g' = groupSegment data og oc g' := by
  unfold groupSegment
  rw [hog]
  by_cases hop : og.get g'
  · rw [if_pos hop, if_pos hop]
    congr 1
    exact concatMap_congr (fun c _ => catBlock_congr (hoc c))
  · rw [if_neg hop, if_neg hop]

/-- Split the Browse-Mode list at a group with a unique name. -/
theorem browse_split_group {data : List RawGroup} {g : String}
    (hnd : (data.map (·.group)).Nodup) (hmem : g ∈ data.map (·.group)) :
    ∃ n1 n2, data.map (·.group) = n1 ++ g :: n2 ∧ g ∉ n1 ∧ g ∉ n2 := by
  rcases List.append_of_mem hmem with ⟨n1, n2, hsplit⟩
  rw [hsplit] at hnd
  rw [List.nodup_append] at hnd
  refine ⟨n1, n2, hsplit, ?_, ?_⟩
  · exact fun hg => hnd.2.2 hg (List.mem_cons_self _ _)
  · exact (List.nodup_cons.mp hnd.2.1).1

/-- A group header in the Browse-Mode list names a dataset group. -/
theorem group_node_mem_names {data : List RawGroup} {og oc : ObjMap} {g : String}
    (h : VisibleNode.group g ∈ concatMap (groupSegment data og oc) (data.map (·.group))) :
    g ∈ data.map (·.group) := by
  rcases mem_concatMap.mp h with ⟨g', hg', hseg⟩
  rwa [group_mem_seg hseg]

/-- Closing (or arbitrarily rewriting) the disclosure state of the group
under the cursor keeps the cursor in range, as long as every other
group's segment is unchanged: the unique header of `g` pins the cursor
to the length of the unchanged prefix. -/
theorem close_group_ok {data : List RawGroup} {og oc og' oc' : ObjMap} {g : String}
    {fi : Int}
    (hnd : (data.map (·.group)).Nodup)
    (hel : visAt (concatMap (groupSegment data og oc) (data.map (·.group))) fi
      = some (.group g))
    (hseg : ∀ g' ∈ data.map (·.group), g' ≠ g →
        groupSegment data og' oc' g' = groupSegment data og oc g') :
    0 ≤ fi ∧ fi.toNat < (concatMap (groupSegment data og' oc') (data.map (·.group))).length := by
  obtain ⟨hfi0, hlt, hnth⟩ := visAt_some hel
  have hgmem : g ∈ data.map (·.group) := group_node_mem_names (List.get?_mem hnth)
  obtain ⟨n1, n2, hsplit, hn1, hn2⟩ := browse_split_group hnd hgmem
  -- decompose the old list around the unique header of g
  have hvis : concatMap (groupSegment data og oc) (data.map (·.group))
      = concatMap (groupSegment data og oc) n1
        ++ VisibleNode.group g ::
          ((if og.get g then
              concatMap (catBlock data oc g) (categoriesByGroup data "" g) else [])
            ++ concatMap (groupSegment data og oc) n2) := by
    rw [hsplit, concatMap_append]
    simp [concatMap, groupSegment, List.append_assoc]
  have hnotm1 : VisibleNode.group g ∉ concatMap (groupSegment data og oc) n1 := by
    intro hmm
    rcases mem_concatMap.mp hmm with ⟨g', hg', hsegm⟩
    exact hn1 ((group_mem_seg hsegm) ▸ hg')
  have hnotm2 : VisibleNode.group g ∉
      ((if og.get g then
          concatMap (catBlock data oc g) (categoriesByGroup data "" g) else [])
        ++ concatMap (groupSegment data og oc) n2) := by
    intro hmm
    rcases List.mem_append.mp hmm with hmm | hmm
    · by_cases hop : og.get g
      · rw [if_pos hop] at hmm
        exact group_not_mem_catBlocks hmm
      · rw [if_neg hop] at hmm; simp at hmm
    · rcases mem_concatMap.mp hmm with ⟨g', hg', hsegm⟩
      exact hn2 ((group_mem_seg hsegm) ▸ hg')
  rw [hvis] at hnth
  have hidx := get?_middle_unique hnth hnotm1 hnotm2
  -- decompose the new list: the prefix before g's segment is unchanged
  have hvis' : concatMap (groupSegment data og' oc') (data.map (·.group))
      = concatMap (groupSegment data og oc) n1
        ++ groupSegment data og' oc' g ++ concatMap (groupSegment data og' oc') n2 := by
    rw [hsplit, concatMap_append]
    have h1 : concatMap (groupSegment data og' oc') n1
        = concatMap (groupSegment data og oc) n1 :=
      concatMap_congr (fun g' hg' => hseg g' (hsplit ▸ List.mem_append_left _ hg')
        (fun he => hn1 (he ▸ hg')))
    rw [h1]
    simp [concatMap, List.append_assoc]
  refine ⟨hfi0, ?_⟩
  rw [hvis', hidx]
  have : (groupSegment data og' oc' g).length ≥ 1 := by
    unfold groupSegment; simp
  simp only [List.length_append]
  omega

/-- Rewriting the open flag of the category under the cursor keeps the
cursor in range (with distinct colon-free group names): every block
before the unique header of `(g, c)` is unchanged. -/
theorem close_category_ok {data : List RawGroup} {og oc : ObjMap} {g c : String}
    {fi : Int} {b : Bool}
    (hnd : (data.map (·.group)).Nodup)
    (hcf : colonFreeGroups data)
    (hel : visAt (concatMap (groupSegment data og oc) (data.map (·.group))) fi
      = some (.category g c)) :
    0 ≤ fi ∧ fi.toNat <
      (concatMap (groupSegment data og (oc.set (catKey g c) b))
        (data.map (·.group))).length := by
  obtain ⟨hfi0, hlt, hnth⟩ := visAt_some hel
  have hmm := List.get?_mem hnth
  rcases mem_concatMap.mp hmm with ⟨g0, hg0, hsegm⟩
  obtain ⟨hg0g, hop, hcmem⟩ := category_mem_seg hsegm
  rw [hg0g] at hg0 hop hcmem
  have hgmem : g ∈ data.map (·.group) := hg0
  have hgcf : ∀ ch ∈ g.data, ch ≠ ':' := by
    rcases List.mem_map.mp hgmem with ⟨r, hr, hrg⟩
    exact fun ch hch => hcf r hr ch (hrg ▸ hch)
  obtain ⟨n1, n2, hsplit, hn1, hn2⟩ := browse_split_group hnd hgmem
  -- split the category list of g at c
  have hcnd : (categoriesByGroup data "" g).Nodup := by
    unfold categoriesByGroup
    split
    · exact uniq_nodup _
    · exact List.nodup_nil
  rcases List.append_of_mem hcmem with ⟨m1, m2, hcsplit⟩
  have hcnotm : c ∉ m1 ∧ c ∉ m2 := by
    rw [hcsplit, List.nodup_append] at hcnd
    exact ⟨fun hcm => hcnd.2.2 hcm (List.mem_cons_self _ _),
      (List.nodup_cons.mp hcnd.2.1).1⟩
  -- other groups' segments are unchanged by setting this key
  have hseg : ∀ g' ∈ data.map (·.group), g' ≠ g →
      groupSegment data og (oc.set (catKey g c) b) g'
        = groupSegment data og oc g' := by
    intro g' hg' hne
    have hg'cf : ∀ ch ∈ g'.data, ch ≠ ':' := by
      rcases List.mem_map.mp hg' with ⟨r, hr, hrg⟩
      exact fun ch hch => hcf r hr ch (hrg ▸ hch)
    refine groupSegment_congr rfl (fun c'' => ?_)
    refine ObjMap.get_set_ne _ _ _ _ (fun he => ?_)
    exact hne (catKey_inj hg'cf hgcf he).1
  -- blocks of other categories of g are unchanged
  have hblk : ∀ c'' , c'' ≠ c →
      catBlock data (oc.set (catKey g c) b) g c'' = catBlock data oc g c'' := by
    intro c'' hne
    refine catBlock_congr (ObjMap.get_set_ne _ _ _ _ (fun he => hne (catKey_inj_right he)))
  -- decompose the old list down to the block of (g, c)
  have hvis : concatMap (groupSegment data og oc) (data.map (·.group))
      = (concatMap (groupSegment data og oc) n1
          ++ VisibleNode.group g :: concatMap (catBlock data oc g) m1)
        ++ VisibleNode.category g c ::
          ((if oc.get (catKey g c) then (itemsUnder data g c).map .item else [])
            ++ (concatMap (catBlock data oc g) m2
              ++ concatMap (groupSegment data og oc) n2)) := by
    rw [hsplit, concatMap_append]
    simp only [concatMap, groupSegment, hop, if_true]
    rw [hcsplit, concatMap_append]
    simp [concatMap, catBlock, List.append_assoc]
  -- the category node occurs nowhere else
  have hnotm1 : VisibleNode.category g c ∉
      (concatMap (groupSegment data og oc) n1
        ++ VisibleNode.group g :: concatMap (catBlock data oc g) m1) := by
    intro hmm2
    rcases List.mem_append.mp hmm2 with hmm2 | hmm2
    · rcases mem_concatMap.mp hmm2 with ⟨g', hg', hsg⟩
      exact hn1 (((category_mem_seg hsg).1).symm ▸ hg')
    · rcases List.mem_cons.mp hmm2 with he | hmm2
      · simp at he
      · rcases mem_concatMap.mp hmm2 with ⟨c', hc', hcb⟩
        rcases mem_catBlock_shape hcb with he | ⟨en, he⟩
        · simp only [VisibleNode.category.injEq] at he
          exact hcnotm.1 (he.2 ▸ hc')
        · simp at he
  have hnotm2 : VisibleNode.category g c ∉
      ((if oc.get (catKey g c) then (itemsUnder data g c).map .item else [])
        ++ (concatMap (catBlock data oc g) m2
          ++ concatMap (groupSegment data og oc) n2)) := by
    intro hmm2
    rcases List.mem_append.mp hmm2 with hmm2 | hmm2
    · by_cases ho : oc.get (catKey g c)
      · rw [if_pos ho] at hmm2
        rcases List.mem_map.mp hmm2 with ⟨en, _, he⟩
        simp at he
      · rw [if_neg ho] at hmm2; simp at hmm2
    · rcases List.mem_append.mp hmm2 with hmm2 | hmm2
      · rcases mem_concatMap.mp hmm2 with ⟨c', hc', hcb⟩
        rcases mem_catBlock_shape hcb with he | ⟨en, he⟩
        · simp only [VisibleNode.category.injEq] at he
          exact hcnotm.2 (he.2 ▸ hc')
        · simp at he
      · rcases mem_concatMap.mp hmm2 with ⟨g', hg', hsg⟩
        exact hn2 (((category_mem_seg hsg).1).symm ▸ hg')
  rw [hvis] at hnth
  have hidx := get?_middle_unique hnth hnotm1 hnotm2
  -- decompose the new list with the same unchanged prefix
  have hvis' : concatMap (groupSegment data og (oc.set (catKey g c) b))
        (data.map (·.group))
      = (concatMap (groupSegment data og oc) n1
          ++ VisibleNode.group g :: concatMap (catBlock data oc g) m1)
        ++ catBlock data (oc.set (catKey g c) b) g c
          ++ (concatMap (catBlock data (oc.set (catKey g c) b) g) m2
            ++ concatMap (groupSegment data og (oc.set (catKey g c) b)) n2) := by
    rw [hsplit, concatMap_append]
    have h1 : concatMap (groupSegment data og (oc.set (catKey g c) b)) n1
        = concatMap (groupSegment data og oc) n1 :=
      concatMap_congr (fun g' hg' => hseg g' (hsplit ▸ List.mem_append_left _ hg')
        (fun he => hn1 (he ▸ hg')))
    rw [h1]
    simp only [concatMap, groupSegment, hop, if_true]
    rw [hcsplit, concatMap_append]
    have h2 : concatMap (catBlock data (oc.set (catKey g c) b) g) m1
        = concatMap (catBlock data oc g) m1 :=
      concatMap_congr (fun c'' hc'' => hblk c'' (fun he => hcnotm.1 (he ▸ hc'')))
    rw [h2]
    simp [concatMap, List.append_assoc]
  refine ⟨hfi0, ?_⟩
  rw [hvis']
  have hcb1 : (catBlock data (oc.set (catKey g c) b) g c).length ≥ 1 := by
    unfold catBlock; simp
  rw [hidx]
  simp only [List.length_append, List.length_cons]
  omega

/-! ### Frame and bound lemmas for the dispatcher branches -/

theorem visibleOf_congr {data : List RawGroup} {t u : AppState}
    (h1 : t.openGroups = u.openGroups) (h2 : t.openCategories = u.openCategories)
    (h3 : t.searchTerm = u.searchTerm) : visibleOf data t = visibleOf data u := by
  unfold visibleOf
  rw [h1, h2, h3]

theorem search_visible_stable {data : List RawGroup} {s : AppState}
    (hm : trimmedTerm s.searchTerm ≠ "") (t : AppState)
    (hst : t.searchTerm = s.searchTerm) : visibleOf data t = visibleOf data s := by
  unfold visibleOf buildVisible
  rw [hst]
  rw [if_neg (by simpa [beq_iff_eq] using hm), if_neg (by simpa [beq_iff_eq] using hm)]

theorem sync_frame (data : List RawGroup) (t : AppState) :
    (syncSelection data t).openGroups = t.openGroups
    ∧ (syncSelection data t).openCategories = t.openCategories
    ∧ (syncSelection data t).searchTerm = t.searchTerm
    ∧ (syncSelection data t).focusedIndex = t.focusedIndex := by
  unfold syncSelection
  split <;> exact ⟨rfl, rfl, rfl, rfl⟩

theorem onAside_cases (data : List RawGroup) (e : KeyEvent) (s : AppState) :
    onAsideKeyDown data e s = typeAheadStep (visibleOf data s) e s
    ∨ onAsideKeyDown data e s = metaJumpStep (visibleOf data s) e s
    ∨ onAsideKeyDown data e s = altTierJump (visibleOf data s) e s
    ∨ onAsideKeyDown data e s
        = dispatchOnEl data (trimmedTerm s.searchTerm) (visibleOf data s) e s := by
  by_cases h1 : typeAheadGuard e
  · exact Or.inl (by simp [onAsideKeyDown, visibleOf, h1])
  · by_cases h2 : metaJumpGuard e
    · exact Or.inr (Or.inl (by simp [onAsideKeyDown, visibleOf, h1, h2]))
    · by_cases h3 : altJumpGuard e
      · exact Or.inr (Or.inr (Or.inl (by simp [onAsideKeyDown, visibleOf, h1, h2, h3])))
      · exact Or.inr (Or.inr (Or.inr (by simp [onAsideKeyDown, visibleOf, h1, h2, h3])))

theorem typeAheadStep_fi (vis : List VisibleNode) (e : KeyEvent) (s : AppState) :
    (typeAheadStep vis e s).focusedIndex = s.focusedIndex
    ∨ ∃ i, i < vis.length ∧ (typeAheadStep vis e s).focusedIndex = (i : Int) := by
  cases hfi : findIndexOpt
      (fun el => strStarts (strLower (getLabel el))
        (strLower (strTrim (s.typeSelectBuffer ++ e.key)))) vis with
  | none => simp [typeAheadStep, hfi]
  | some idx =>
    right
    exact ⟨idx, findIndexOpt_some_lt hfi, by simp [typeAheadStep, hfi]⟩

theorem metaJumpStep_frame (vis : List VisibleNode) (e : KeyEvent) (s : AppState) :
    (metaJumpStep vis e s).openGroups = s.openGroups
    ∧ (metaJumpStep vis e s).openCategories = s.openCategories
    ∧ (metaJumpStep vis e s).searchTerm = s.searchTerm
    ∧ (metaJumpStep vis e s).selected = s.selected := by
  unfold metaJumpStep
  split <;> exact ⟨rfl, rfl, rfl, rfl⟩

theorem metaJumpStep_fi (vis : List VisibleNode) (e : KeyEvent) (s : AppState) :
    (metaJumpStep vis e s).focusedIndex = s.focusedIndex
    ∨ ∃ i ∈ positions vis .group, (metaJumpStep vis e s).focusedIndex = (i : Int) := by
  cases hp : positions vis .group with
  | nil => left; unfold metaJumpStep; rw [hp]
  | cons i0 rest =>
    right
    by_cases hk : e.key == "ArrowUp"
    · refine ⟨i0, by simp [hp], ?_⟩
      unfold metaJumpStep; rw [hp]; simp [hk]
    · refine ⟨(i0 :: rest).getLast (List.cons_ne_nil i0 rest), ?_, ?_⟩
      · exact List.getLast_mem (List.cons_ne_nil i0 rest)
      · unfold metaJumpStep; rw [hp]; simp [hk]

theorem altPick_mem {key : String} {gs : List Nat} {pos : Int} {i : Nat}
    (h : altPick key gs pos = some i) : i ∈ gs := by
  unfold altPick at h
  split at h
  · exact List.get?_mem h
  · split at h
    · exact List.get?_mem h
    · cases h

theorem altTierTarget_lt {vis : List VisibleNode} {fi : Int} {e : KeyEvent} {i : Nat}
    (h : altTierTarget vis fi e = some i) : i < vis.length := by
  unfold altTierTarget at h
  split at h
  · exact mem_positions_lt (altPick_mem h)
  · split at h
    · exact mem_positions_lt (lastBelow_mem h)
    · exact mem_positions_lt (firstAbove_mem h)
  · split at h
    · exact mem_positions_lt (lastBelow_mem h)
    · exact mem_positions_lt (firstAbove_mem h)
  · cases h

theorem altTierJump_frame (vis : List VisibleNode) (e : KeyEvent) (s : AppState) :
    (altTierJump vis e s).openGroups = s.openGroups
    ∧ (altTierJump vis e s).openCategories = s.openCategories
    ∧ (altTierJump vis e s).searchTerm = s.searchTerm
    ∧ (altTierJump vis e s).selected = s.selected := by
  unfold altTierJump
  split <;> exact ⟨rfl, rfl, rfl, rfl⟩

theorem altTierJump_fi (vis : List VisibleNode) (e : KeyEvent) (s : AppState) :
    (altTierJump vis e s).focusedIndex = s.focusedIndex
    ∨ ∃ i, i < vis.length ∧ (altTierJump vis e s).focusedIndex = (i : Int) := by
  unfold altTierJump
  cases ht : altTierTarget vis s.focusedIndex e with
  | none => exact Or.inl rfl
  | some i => exact Or.inr ⟨i, altTierTarget_lt ht, rfl⟩

theorem arrowMove_frame (vis : List VisibleNode) (e : KeyEvent) (s : AppState) :
    (arrowMove vis e s).openGroups = s.openGroups
    ∧ (arrowMove vis e s).openCategories = s.openCategories
    ∧ (arrowMove vis e s).searchTerm = s.searchTerm
    ∧ (arrowMove vis e s).selected = s.selected
    ∧ (arrowMove vis e s).typeSelectBuffer = s.typeSelectBuffer := by
  unfold arrowMove
  split
  · exact ⟨rfl, rfl, rfl, rfl, rfl⟩
  · split <;> exact ⟨rfl, rfl, rfl, rfl, rfl⟩

theorem arrowMove_fi_ok {vis : List VisibleNode} (e : KeyEvent) {s : AppState}
    (hvis : vis ≠ []) (hok : cursorOk vis s.focusedIndex) :
    cursorOk vis (arrowMove vis e s).focusedIndex := by
  have hlen : 0 < vis.length := List.length_pos.mpr hvis
  unfold arrowMove
  split
  · right
    rcases le_or_lt (s.focusedIndex + 1) ((vis.length : Int) - 1) with hle | hlt
    · rw [min_eq_left hle]
      rcases hok with h | h <;> simp <;> omega
    · rw [min_eq_right (by omega)]
      simp
      omega
  · split
    · right
      rcases le_or_lt (s.focusedIndex - 1) 0 with hle | hlt
      · rw [max_eq_right hle]
        simp
        omega
      · rw [max_eq_left (by omega)]
        rcases hok with h | h <;> simp <;> omega
    · exact hok

theorem arrowMove_of_not_arrow {vis : List VisibleNode} {e : KeyEvent} {s : AppState}
    (hD : e.key ≠ "ArrowDown") (hU : e.key ≠ "ArrowUp") : arrowMove vis e s = s := by
  unfold arrowMove
  rw [if_neg hD, if_neg hU]

theorem activateEl_fi (e : KeyEvent) (el : Option VisibleNode) (t : AppState) :
    (activateEl e el t).focusedIndex = t.focusedIndex
    ∧ (activateEl e el t).searchTerm = t.searchTerm
    ∧ (activateEl e el t).typeSelectBuffer = t.typeSelectBuffer := by
  rcases el with _ | el
  · exact ⟨rfl, rfl, rfl⟩
  rcases el with g | ⟨g, c⟩ | it
  · simp only [activateEl]
    by_cases h1 : e.key = "Enter" ∨ e.key = " "
    · rw [if_pos h1]; exact ⟨rfl, rfl, rfl⟩
    · rw [if_neg h1]
      by_cases h2 : e.key = "ArrowRight" ∨ e.key = "ArrowLeft"
      · rw [if_pos h2]; exact ⟨rfl, rfl, rfl⟩
      · rw [if_neg h2]; exact ⟨rfl, rfl, rfl⟩
  · simp only [activateEl]
    by_cases h1 : e.key = "Enter" ∨ e.key = " "
    · rw [if_pos h1]; exact ⟨rfl, rfl, rfl⟩
    · rw [if_neg h1]
      by_cases h2 : e.key = "ArrowRight" ∨ e.key = "ArrowLeft"
      · rw [if_pos h2]; exact ⟨rfl, rfl, rfl⟩
      · rw [if_neg h2]; exact ⟨rfl, rfl, rfl⟩
  · simp only [activateEl]
    by_cases h1 : e.key = "Enter" ∨ e.key = " "
    · rw [if_pos h1]; exact ⟨rfl, rfl, rfl⟩
    · rw [if_neg h1]; exact ⟨rfl, rfl, rfl⟩

theorem activateEl_group_cases (e : KeyEvent) (g : String) (t : AppState) :
    activateEl e (some (.group g)) t = t
    ∨ ∃ b, activateEl e (some (.group g)) t
          = { t with openGroups := t.openGroups.set g b }
        ∧ e.key ≠ "ArrowDown" ∧ e.key ≠ "ArrowUp" := by
  simp only [activateEl]
  by_cases h1 : e.key = "Enter" ∨ e.key = " "
  · rw [if_pos h1]
    refine Or.inr ⟨_, rfl, ?_, ?_⟩ <;> rcases h1 with hk | hk <;> rw [hk] <;> decide
  · rw [if_neg h1]
    by_cases h2 : e.key = "ArrowRight" ∨ e.key = "ArrowLeft"
    · rw [if_pos h2]
      refine Or.inr ⟨_, rfl, ?_, ?_⟩ <;> rcases h2 with hk | hk <;> rw [hk] <;> decide
    · rw [if_neg h2]; exact Or.inl rfl

theorem activateEl_category_cases (e : KeyEvent) (g c : String) (t : AppState) :
    activateEl e (some (.category g c)) t = t
    ∨ ∃ b, activateEl e (some (.category g c)) t
          = { t with openCategories := t.openCategories.set (catKey g c) b }
        ∧ e.key ≠ "ArrowDown" ∧ e.key ≠ "ArrowUp" := by
  simp only [activateEl]
  by_cases h1 : e.key = "Enter" ∨ e.key = " "
  · rw [if_pos h1]
    refine Or.inr ⟨_, rfl, ?_, ?_⟩ <;> rcases h1 with hk | hk <;> rw [hk] <;> decide
  · rw [if_neg h1]
    by_cases h2 : e.key = "ArrowRight" ∨ e.key = "ArrowLeft"
    · rw [if_pos h2]
      refine Or.inr ⟨_, rfl, ?_, ?_⟩ <;> rcases h2 with hk | hk <;> rw [hk] <;> decide
    · rw [if_neg h2]; exact Or.inl rfl

theorem activateEl_item_frame (e : KeyEvent) (it : Entry) (t : AppState) :
    (activateEl e (some (.item it)) t).openGroups = t.openGroups
    ∧ (activateEl e (some (.item it)) t).openCategories = t.openCategories
    ∧ (activateEl e (some (.item it)) t).searchTerm = t.searchTerm
    ∧ (activateEl e (some (.item it)) t).focusedIndex = t.focusedIndex := by
  simp only [activateEl]
  by_cases h1 : e.key = "Enter" ∨ e.key = " "
  · rw [if_pos h1]; exact ⟨rfl, rfl, rfl, rfl⟩
  · rw [if_neg h1]; exact ⟨rfl, rfl, rfl, rfl⟩

theorem get_foldl_set_not_mem {kf : String → String} {cs : List String} {oc : ObjMap}
    {k : String} (h : ∀ c ∈ cs, kf c ≠ k) :
    ObjMap.get (cs.foldl (fun m c => m.set (kf c) true) oc) k = oc.get k := by
  unfold ObjMap.get
  rw [lookup_foldl_set_not_mem h]

theorem get_foldl_erase_not_mem {kf : String → String} {cs : List String} {oc : ObjMap}
    {k : String} (h : ∀ c ∈ cs, kf c ≠ k) :
    ObjMap.get (cs.foldl (fun m c => ObjMap.eraseKey (kf c) m) oc) k = oc.get k := by
  unfold ObjMap.get
  rw [lookup_foldl_erase_not_mem h]

theorem browse_nonempty {data : List RawGroup} {og oc : ObjMap} {l : List String}
    (h : l ≠ []) : concatMap (groupSegment data og oc) l ≠ [] := by
  cases l with
  | nil => exact absurd rfl h
  | cons x rest => simp [concatMap, groupSegment]

theorem names_nonempty {data : List RawGroup} {og oc : ObjMap} {l : List String}
    (h : concatMap (groupSegment data og oc) l ≠ []) : l ≠ [] := by
  intro hl
  rw [hl] at h
  exact h rfl

theorem colonFree_of_mem_names {data : List RawGroup} {g : String}
    (hcf : colonFreeGroups data) (h : g ∈ data.map (·.group)) :
    ∀ ch ∈ g.data, ch ≠ ':' := by
  rcases List.mem_map.mp h with ⟨r, hr, hrg⟩
  exact fun ch hch => hcf r hr ch (hrg ▸ hch)

/-- The four outcomes of the lines 570-605 block: the tail step, or a
full expand/collapse of the group under the cursor. -/
theorem dispatchOnEl_cases (data : List RawGroup) (tq : String) (vis : List VisibleNode)
    (e : KeyEvent) (s : AppState) :
    dispatchOnEl data tq vis e s = tailStep vis e (visAt vis s.focusedIndex) s
    ∨ ∃ g, visAt vis s.focusedIndex = some (.group g)
        ∧ (dispatchOnEl data tq vis e s
              = { s with
                  openGroups := (expandGroupFully data tq g s.openGroups s.openCategories).1,
                  openCategories :=
                    (expandGroupFully data tq g s.openGroups s.openCategories).2 }
           ∨ dispatchOnEl data tq vis e s
              = { s with
                  openGroups := (collapseGroupFully data tq g s.openGroups s.openCategories).1,
                  openCategories :=
                    (collapseGroupFully data tq g s.openGroups s.openCategories).2 }) := by
  have hsplit : visAt vis s.focusedIndex = none
      ∨ ∃ el, visAt vis s.focusedIndex = some el := by
    cases visAt vis s.focusedIndex with
    | none => exact Or.inl rfl
    | some x => exact Or.inr ⟨x, rfl⟩
  rcases hsplit with hel | ⟨el, hel⟩
  · left; simp only [dispatchOnEl, hel]
  · rcases el with g | ⟨g, c⟩ | it
    · by_cases hc1 : (e.altKey && (e.key == "ArrowRight") && ! s.openGroups.get g) = true
      · refine Or.inr ⟨g, hel, Or.inl ?_⟩
        simp only [dispatchOnEl, hel]
        rw [if_pos hc1]
      · by_cases hc2 : (e.altKey && (e.key == "ArrowLeft") && s.openGroups.get g) = true
        · refine Or.inr ⟨g, hel, Or.inr ?_⟩
          simp only [dispatchOnEl, hel]
          rw [if_neg hc1, if_pos hc2]
        · left
          simp only [dispatchOnEl, hel]
          rw [if_neg hc1, if_neg hc2]
    · left; simp only [dispatchOnEl, hel]
    · left; simp only [dispatchOnEl, hel]

/-- The tail of the dispatcher preserves the cursor invariant (with
distinct colon-free group names). -/
theorem tailStep_ok {data : List RawGroup}
    (hnd : (data.map (·.group)).Nodup) (hcf : colonFreeGroups data)
    (e : KeyEvent) (s : AppState)
    (hvis : visibleOf data s ≠ [])
    (hok : cursorOk (visibleOf data s) s.focusedIndex) :
    (tailStep (visibleOf data s) e (visAt (visibleOf data s) s.focusedIndex) s).searchTerm
      = s.searchTerm
    ∧ visibleOf data
        (tailStep (visibleOf data s) e (visAt (visibleOf data s) s.focusedIndex) s) ≠ []
    ∧ cursorOk
        (visibleOf data
          (tailStep (visibleOf data s) e (visAt (visibleOf data s) s.focusedIndex) s))
        (tailStep (visibleOf data s) e (visAt (visibleOf data s) s.focusedIndex) s).focusedIndex := by
  have hta := arrowMove_frame (visibleOf data s) e s
  have htok : cursorOk (visibleOf data s) (arrowMove (visibleOf data s) e s).focusedIndex :=
    arrowMove_fi_ok e hvis hok
  have hvt : visibleOf data (arrowMove (visibleOf data s) e s) = visibleOf data s :=
    visibleOf_congr hta.1 hta.2.1 hta.2.2.1
  have hsplit : visAt (visibleOf data s) s.focusedIndex = none
      ∨ ∃ el, visAt (visibleOf data s) s.focusedIndex = some el := by
    cases visAt (visibleOf data s) s.focusedIndex with
    | none => exact Or.inl rfl
    | some x => exact Or.inr ⟨x, rfl⟩
  rcases hsplit with hel | ⟨el, hel⟩
  · have ht : tailStep (visibleOf data s) e (visAt (visibleOf data s) s.focusedIndex) s
        = arrowMove (visibleOf data s) e s := by rw [hel]; rfl
    rw [ht]
    exact ⟨hta.2.2.1, by rw [hvt]; exact hvis, by rw [hvt]; exact htok⟩
  · rcases el with g | ⟨g, c⟩ | it
    · -- group header under the cursor
      have ht : tailStep (visibleOf data s) e (visAt (visibleOf data s) s.focusedIndex) s
          = activateEl e (some (.group g)) (arrowMove (visibleOf data s) e s) := by
        rw [hel]; rfl
      rw [ht]
      rcases activateEl_group_cases e g (arrowMove (visibleOf data s) e s)
        with ha | ⟨b, ha, hD, hU⟩
      · rw [ha]
        exact ⟨hta.2.2.1, by rw [hvt]; exact hvis, by rw [hvt]; exact htok⟩
      · have harr : arrowMove (visibleOf data s) e s = s := arrowMove_of_not_arrow hD hU
        rw [ha, harr]
        refine ⟨rfl, ?_, ?_⟩
        all_goals by_cases hmode : trimmedTerm s.searchTerm = ""
        · -- browse mode, nonemptiness
          have hbv : visibleOf data s
              = concatMap (groupSegment data s.openGroups s.openCategories)
                  (data.map (·.group)) := by
            unfold visibleOf; rw [hmode, buildVisible_browse]
          have hbv' : visibleOf data
                { s with openGroups := s.openGroups.set g b }
              = concatMap (groupSegment data (s.openGroups.set g b) s.openCategories)
                  (data.map (·.group)) := by
            simp only [visibleOf]
            rw [hmode, buildVisible_browse]
          rw [hbv']
          exact browse_nonempty (names_nonempty (hbv ▸ hvis))
        · -- search mode, nonemptiness
          rw [search_visible_stable hmode ({ s with openGroups := s.openGroups.set g b }) rfl]
          exact hvis
        · -- browse mode, cursor validity
          have hbv : visibleOf data s
              = concatMap (groupSegment data s.openGroups s.openCategories)
                  (data.map (·.group)) := by
            unfold visibleOf; rw [hmode, buildVisible_browse]
          have hbv' : visibleOf data
                { s with openGroups := s.openGroups.set g b }
              = concatMap (groupSegment data (s.openGroups.set g b) s.openCategories)
                  (data.map (·.group)) := by
            simp only [visibleOf]
            rw [hmode, buildVisible_browse]
          have hel' := hel
          rw [hbv] at hel'
          have hcl := @close_group_ok data s.openGroups s.openCategories
            (s.openGroups.set g b) s.openCategories g s.focusedIndex hnd hel'
            (fun g' _ hne => groupSegment_congr (ObjMap.get_set_ne _ _ _ _ hne) (fun _ => rfl))
          rw [hbv']
          exact Or.inr ⟨hcl.1, hcl.2⟩
        · -- search mode, cursor validity
          rw [search_visible_stable hmode ({ s with openGroups := s.openGroups.set g b }) rfl]
          exact hok
    · -- category header under the cursor
      have ht : tailStep (visibleOf data s) e (visAt (visibleOf data s) s.focusedIndex) s
          = activateEl e (some (.category g c)) (arrowMove (visibleOf data s) e s) := by
        rw [hel]; rfl
      rw [ht]
      rcases activateEl_category_cases e g c (arrowMove (visibleOf data s) e s)
        with ha | ⟨b, ha, hD, hU⟩
      · rw [ha]
        exact ⟨hta.2.2.1, by rw [hvt]; exact hvis, by rw [hvt]; exact htok⟩
      · have harr : arrowMove (visibleOf data s) e s = s := arrowMove_of_not_arrow hD hU
        rw [ha, harr]
        refine ⟨rfl, ?_, ?_⟩
        all_goals by_cases hmode : trimmedTerm s.searchTerm = ""
        · have hbv : visibleOf data s
              = concatMap (groupSegment data s.openGroups s.openCategories)
                  (data.map (·.group)) := by
            unfold visibleOf; rw [hmode, buildVisible_browse]
          have hbv' : visibleOf data
                { s with openCategories := s.openCategories.set (catKey g c) b }
              = concatMap
                  (groupSegment data s.openGroups (s.openCategories.set (catKey g c) b))
                  (data.map (·.group)) := by
            simp only [visibleOf]
            rw [hmode, buildVisible_browse]
          rw [hbv']
          exact browse_nonempty (names_nonempty (hbv ▸ hvis))
        · rw [search_visible_stable hmode ({ s with openCategories := s.openCategories.set (catKey g c) b }) rfl]
          exact hvis
        · have hbv : visibleOf data s
              = concatMap (groupSegment data s.openGroups s.openCategories)
                  (data.map (·.group)) := by
            unfold visibleOf; rw [hmode, buildVisible_browse]
          have hbv' : visibleOf data
                { s with openCategories := s.openCategories.set (catKey g c) b }
              = concatMap
                  (groupSegment data s.openGroups (s.openCategories.set (catKey g c) b))
                  (data.map (·.group)) := by
            simp only [visibleOf]
            rw [hmode, buildVisible_browse]
          have hel' := hel
          rw [hbv] at hel'
          have hcl := close_category_ok (b := b) hnd hcf hel'
          rw [hbv']
          exact Or.inr ⟨hcl.1, hcl.2⟩
        · rw [search_visible_stable hmode ({ s with openCategories := s.openCategories.set (catKey g c) b }) rfl]
          exact hok
    · -- item under the cursor
      have ht : tailStep (visibleOf data s) e (visAt (visibleOf data s) s.focusedIndex) s
          = activateEl e (some (.item it)) (arrowMove (visibleOf data s) e s) := by
        rw [hel]; rfl
      rw [ht]
      have hif := activateEl_item_frame e it (arrowMove (visibleOf data s) e s)
      have hv : visibleOf data
            (activateEl e (some (.item it)) (arrowMove (visibleOf data s) e s))
          = visibleOf data s :=
        (visibleOf_congr hif.1 hif.2.1 hif.2.2.1).trans hvt
      refine ⟨hif.2.2.1.trans hta.2.2.1, by rw [hv]; exact hvis, ?_⟩
      rw [hv, (activateEl_fi e (some (.item it)) (arrowMove (visibleOf data s) e s)).1]
      exact htok

/-- The lines 570-605 block preserves the cursor invariant. -/
theorem dispatchOnEl_ok {data : List RawGroup}
    (hnd : (data.map (·.group)).Nodup) (hcf : colonFreeGroups data)
    (e : KeyEvent) (s : AppState)
    (hvis : visibleOf data s ≠ [])
    (hok : cursorOk (visibleOf data s) s.focusedIndex) :
    (dispatchOnEl data (trimmedTerm s.searchTerm) (visibleOf data s) e s).searchTerm
      = s.searchTerm
    ∧ visibleOf data
        (dispatchOnEl data (trimmedTerm s.searchTerm) (visibleOf data s) e s) ≠ []
    ∧ cursorOk
        (visibleOf data (dispatchOnEl data (trimmedTerm s.searchTerm) (visibleOf data s) e s))
        (dispatchOnEl data (trimmedTerm s.searchTerm) (visibleOf data s) e s).focusedIndex := by
  rcases dispatchOnEl_cases data (trimmedTerm s.searchTerm) (visibleOf data s) e s
    with hr | ⟨g, helg, hr | hr⟩
  · rw [hr]
    exact tailStep_ok hnd hcf e s hvis hok
  · -- expandGroupFully
    rw [hr]
    refine ⟨rfl, ?_, ?_⟩
    all_goals by_cases hmode : trimmedTerm s.searchTerm = ""
    · have hbv : visibleOf data s
          = concatMap (groupSegment data s.openGroups s.openCategories)
              (data.map (·.group)) := by
        unfold visibleOf; rw [hmode, buildVisible_browse]
      rw [hmode]
      have hbv' : visibleOf data
            { s with
              openGroups := (expandGroupFully data "" g s.openGroups s.openCategories).1,
              openCategories := (expandGroupFully data "" g s.openGroups s.openCategories).2 }
          = concatMap
              (groupSegment data (expandGroupFully data "" g s.openGroups s.openCategories).1
                (expandGroupFully data "" g s.openGroups s.openCategories).2)
              (data.map (·.group)) := by
        simp only [visibleOf]
        rw [hmode, buildVisible_browse]
      rw [hbv']
      exact browse_nonempty (names_nonempty (hbv ▸ hvis))
    ·
      rw [search_visible_stable hmode
        ({ s with
            openGroups :=
              (expandGroupFully data (trimmedTerm s.searchTerm) g
                s.openGroups s.openCategories).1,
            openCategories :=
              (expandGroupFully data (trimmedTerm s.searchTerm) g
                s.openGroups s.openCategories).2 }) rfl]
      exact hvis
    · have hbv : visibleOf data s
          = concatMap (groupSegment data s.openGroups s.openCategories)
              (data.map (·.group)) := by
        unfold visibleOf; rw [hmode, buildVisible_browse]
      have helg' := helg
      rw [hbv] at helg'
      have hgmem : g ∈ data.map (·.group) :=
        group_node_mem_names (List.get?_mem (visAt_some helg').2.2)
      have hgcf := colonFree_of_mem_names hcf hgmem
      rw [hmode]
      have hbv' : visibleOf data
            { s with
              openGroups := (expandGroupFully data "" g s.openGroups s.openCategories).1,
              openCategories := (expandGroupFully data "" g s.openGroups s.openCategories).2 }
          = concatMap
              (groupSegment data (expandGroupFully data "" g s.openGroups s.openCategories).1
                (expandGroupFully data "" g s.openGroups s.openCategories).2)
              (data.map (·.group)) := by
        simp only [visibleOf]
        rw [hmode, buildVisible_browse]
      rw [hbv']
      have hseg : ∀ g' ∈ data.map (·.group), g' ≠ g →
          groupSegment data (expandGroupFully data "" g s.openGroups s.openCategories).1
            (expandGroupFully data "" g s.openGroups s.openCategories).2 g'
          = groupSegment data s.openGroups s.openCategories g' := by
        intro g' hg' hne
        have hg'cf := colonFree_of_mem_names hcf hg'
        refine groupSegment_congr (ObjMap.get_set_ne _ _ _ _ hne) (fun c'' => ?_)
        exact get_foldl_set_not_mem
          (fun cc _ heq => hne ((catKey_inj hgcf hg'cf heq).1.symm))
      have hcl := close_group_ok hnd helg' hseg
      exact Or.inr ⟨hcl.1, hcl.2⟩
    · rw [search_visible_stable hmode
        ({ s with
            openGroups :=
              (expandGroupFully data (trimmedTerm s.searchTerm) g
                s.openGroups s.openCategories).1,
            openCategories :=
              (expandGroupFully data (trimmedTerm s.searchTerm) g
                s.openGroups s.openCategories).2 }) rfl]
      exact hok
  · -- collapseGroupFully
    rw [hr]
    refine ⟨rfl, ?_, ?_⟩
    all_goals by_cases hmode : trimmedTerm s.searchTerm = ""
    · have hbv : visibleOf data s
          = concatMap (groupSegment data s.openGroups s.openCategories)
              (data.map (·.group)) := by
        unfold visibleOf; rw [hmode, buildVisible_browse]
      rw [hmode]
      have hbv' : visibleOf data
            { s with
              openGroups := (collapseGroupFully data "" g s.openGroups s.openCategories).1,
              openCategories :=
                (collapseGroupFully data "" g s.openGroups s.openCategories).2 }
          = concatMap
              (groupSegment data
                (collapseGroupFully data "" g s.openGroups s.openCategories).1
                (collapseGroupFully data "" g s.openGroups s.openCategories).2)
              (data.map (·.group)) := by
        simp only [visibleOf]
        rw [hmode, buildVisible_browse]
      rw [hbv']
      exact browse_nonempty (names_nonempty (hbv ▸ hvis))
    · rw [search_visible_stable hmode
        ({ s with
            openGroups :=
              (collapseGroupFully data (trimmedTerm s.searchTerm) g
                s.openGroups s.openCategories).1,
            openCategories :=
              (collapseGroupFully data (trimmedTerm s.searchTerm) g
                s.openGroups s.openCategories).2 }) rfl]
      exact hvis
    · have hbv : visibleOf data s
          = concatMap (groupSegment data s.openGroups s.openCategories)
              (data.map (·.group)) := by
        unfold visibleOf; rw [hmode, buildVisible_browse]
      have helg' := helg
      rw [hbv] at helg'
      have hgmem : g ∈ data.map (·.group) :=
        group_node_mem_names (List.get?_mem (visAt_some helg').2.2)
      have hgcf := colonFree_of_mem_names hcf hgmem
      rw [hmode]
      have hbv' : visibleOf data
            { s with
              openGroups := (collapseGroupFully data "" g s.openGroups s.openCategories).1,
              openCategories :=
                (collapseGroupFully data "" g s.openGroups s.openCategories).2 }
          = concatMap
              (groupSegment data
                (collapseGroupFully data "" g s.openGroups s.openCategories).1
                (collapseGroupFully data "" g s.openGroups s.openCategories).2)
              (data.map (·.group)) := by
        simp only [visibleOf]
        rw [hmode, buildVisible_browse]
      rw [hbv']
      have hseg : ∀ g' ∈ data.map (·.group), g' ≠ g →
          groupSegment data (collapseGroupFully data "" g s.openGroups s.openCategories).1
            (collapseGroupFully data "" g s.openGroups s.openCategories).2 g'
          = groupSegment data s.openGroups s.openCategories g' := by
        intro g' hg' hne
        have hg'cf := colonFree_of_mem_names hcf hg'
        refine groupSegment_congr (ObjMap.get_set_ne _ _ _ _ hne) (fun c'' => ?_)
        exact get_foldl_erase_not_mem
          (fun cc _ heq => hne ((catKey_inj hgcf hg'cf heq).1.symm))
      have hcl := close_group_ok hnd helg' hseg
      exact Or.inr ⟨hcl.1, hcl.2⟩
    · rw [search_visible_stable hmode
        ({ s with
            openGroups :=
              (collapseGroupFully data (trimmedTerm s.searchTerm) g
                s.openGroups s.openCategories).1,
            openCategories :=
              (collapseGroupFully data (trimmedTerm s.searchTerm) g
                s.openGroups s.openCategories).2 }) rfl]
      exact hok

/-- One full aside key event (dispatch plus focus/selection sync)
preserves the cursor invariant. -/
theorem key_step_ok (data : List RawGroup)
    (hnd : (data.map (·.group)).Nodup) (hcf : colonFreeGroups data)
    (e : KeyEvent) (s : AppState)
    (hvis : visibleOf data s ≠ [])
    (hok : cursorOk (visibleOf data s) s.focusedIndex) :
    visibleOf data (applyEvent data (.key e) s) ≠ []
    ∧ cursorOk (visibleOf data (applyEvent data (.key e) s))
        (applyEvent data (.key e) s).focusedIndex := by
  have happ : applyEvent data (.key e) s = syncSelection data (onAsideKeyDown data e s) := rfl
  have hs := sync_frame data (onAsideKeyDown data e s)
  have hvsync : visibleOf data (syncSelection data (onAsideKeyDown data e s))
      = visibleOf data (onAsideKeyDown data e s) :=
    visibleOf_congr hs.1 hs.2.1 hs.2.2.1
  rw [happ, hvsync, hs.2.2.2]
  rcases onAside_cases data e s with hcase | hcase | hcase | hcase
  · rw [hcase]
    have hf := typeAheadStep_frame (visibleOf data s) e s
    have hveq : visibleOf data (typeAheadStep (visibleOf data s) e s) = visibleOf data s :=
      visibleOf_congr hf.1 hf.2.1 hf.2.2.2
    rw [hveq]
    refine ⟨hvis, ?_⟩
    rcases typeAheadStep_fi (visibleOf data s) e s with hfi | ⟨i, hi, hfi⟩
    · rw [hfi]; exact hok
    · rw [hfi]
      exact Or.inr ⟨by omega, by omega⟩
  · rw [hcase]
    have hf := metaJumpStep_frame (visibleOf data s) e s
    have hveq : visibleOf data (metaJumpStep (visibleOf data s) e s) = visibleOf data s :=
      visibleOf_congr hf.1 hf.2.1 hf.2.2.1
    rw [hveq]
    refine ⟨hvis, ?_⟩
    rcases metaJumpStep_fi (visibleOf data s) e s with hfi | ⟨i, hmem, hfi⟩
    · rw [hfi]; exact hok
    · rw [hfi]
      have hi := mem_positions_lt hmem
      exact Or.inr ⟨by omega, by omega⟩
  · rw [hcase]
    have hf := altTierJump_frame (visibleOf data s) e s
    have hveq : visibleOf data (altTierJump (visibleOf data s) e s) = visibleOf data s :=
      visibleOf_congr hf.1 hf.2.1 hf.2.2.1
    rw [hveq]
    refine ⟨hvis, ?_⟩
    rcases altTierJump_fi (visibleOf data s) e s with hfi | ⟨i, hi, hfi⟩
    · rw [hfi]; exact hok
    · rw [hfi]
      exact Or.inr ⟨by omega, by omega⟩
  · rw [hcase]
    have hd := dispatchOnEl_ok hnd hcf e s hvis hok
    exact ⟨hd.2.1, hd.2.2⟩

/-- C1 amended.  Over a dataset whose group names are pairwise distinct
and contain no colon, any sequence of aside key events — each processed
with its focus/selection sync — keeps the cursor invariant: starting
from a state whose Visible List is non-empty and whose `focusedIndex`
is -1 or a valid index, the Visible List stays non-empty and
`focusedIndex` stays -1 or a valid index of the then-current list.
Search edits, by contrast, perform no clamping, and the counterexample
records the failing cases the original claim covered. -/
theorem cursor_validity (data : List RawGroup)
    (hnd : (data.map (·.group)).Nodup) (hcf : colonFreeGroups data)
    (s : AppState) (es : List KeyEvent)
    (hvis : visibleOf data s ≠ [])
    (hok : cursorOk (visibleOf data s) s.focusedIndex) :
    visibleOf data (runKeys data es s) ≠ []
    ∧ cursorOk (visibleOf data (runKeys data es s)) (runKeys data es s).focusedIndex := by
  induction es generalizing s with
  | nil => exact ⟨hvis, hok⟩
  | cons e rest ih =>
    have hstep := key_step_ok data hnd hcf e s hvis hok
    have hrun : runKeys data (e :: rest) s
        = runKeys data rest (applyEvent data (.key e) s) := rfl
    rw [hrun]
    exact ih _ hstep.1 hstep.2

/-- C1 amended witness: two key events (ArrowDown, then Enter on the
group header) on the sample dataset keep the cursor valid. -/
theorem cursor_validity_witness :
    (exData.map (·.group)).Nodup ∧ colonFreeGroups exData
    ∧ visibleOf exData initState ≠ []
    ∧ cursorOk (visibleOf exData (runKeys exData [keyDown, keyEnter] initState))
        (runKeys exData [keyDown, keyEnter] initState).focusedIndex :=
  ⟨by decide, by unfold colonFreeGroups; decide, by decide,
   (cursor_validity exData (by decide) (by unfold colonFreeGroups; decide)
      initState [keyDown, keyEnter] (by decide) (Or.inl rfl)).2⟩

/-- C1 counterexample.  (a) After ArrowDown focuses index 0, a search
edit to a no-match query empties the Visible List but the cursor stays
at 0, not -1.  (b) From the empty list, ArrowUp sets the cursor to 0,
an invalid index.  (c) With a colon in a group name, the category keys
collide and Enter on the category header at index 4 shrinks the list to
4 nodes with the cursor still at 4.  (d) With a duplicated group name,
Enter on the second group header at index 3 shrinks the list to 2 nodes
with the cursor still at 3. -/
theorem cursor_invariant_cex :
    (visibleOf exData (applyEvent exData (.searchEdit "zzz")
        (applyEvent exData (.key keyDown) initState)) = []
      ∧ (applyEvent exData (.searchEdit "zzz")
          (applyEvent exData (.key keyDown) initState)).focusedIndex = 0)
    ∧ ((applyEvent exData (.searchEdit "zzz") initState).focusedIndex = -1
      ∧ (applyEvent exData (.key keyUp)
          (applyEvent exData (.searchEdit "zzz") initState)).focusedIndex = 0
      ∧ visibleOf exData (applyEvent exData (.key keyUp)
          (applyEvent exData (.searchEdit "zzz") initState)) = [])
    ∧ (visAt (visibleOf colonData stColon) stColon.focusedIndex
        = some (.category "a" "b::c")
      ∧ (applyEvent colonData (.key keyEnter) stColon).focusedIndex = 4
      ∧ (visibleOf colonData (applyEvent colonData (.key keyEnter) stColon)).length = 4)
    ∧ (visAt (visibleOf dupData stDup) stDup.focusedIndex = some (.group "A")
      ∧ (applyEvent dupData (.key keyEnter) stDup).focusedIndex = 3
      ∧ (visibleOf dupData (applyEvent dupData (.key keyEnter) stDup)).length = 2) := by
  refine ⟨⟨?_, ?_⟩, ⟨?_, ?_, ?_⟩, ⟨?_, ?_, ?_⟩, ⟨?_, ?_, ?_⟩⟩ <;> decide

end DataDict
